import Mathlib

/-!
# Verification of the gcache `ScoreCache` (score-weighted eviction policy)

Shallow embedding of `score.go` from britt/gcache.  Keys and values are
modelled as `Nat` (the Go code stores them as opaque `interface{}` and only
ever compares keys for equality); Go `int` is modelled as `Int`.  The
priority structure is the Go standard-library `container/heap` run over the
slice `priorityHeap []*scoredItem`; its algorithms (`up`, `down`, `Push`,
`Pop`, `Fix`, `Remove`) are translated below.  A Go panic (index out of
range on an empty heap) is modelled as `none`.  Callback invocations are
modelled as event lists: every call site of `evictedCallback` appends the
evicted entry, so "the evicted callback fires n times" becomes "the event
list has length n".
-/

set_option linter.unusedVariables false

namespace GCache

open scoped List

/-- `scoredItem` from score.go: `{key, value, score, weight}`.
Note the struct has no expiry field. -/
structure scoredItem where
  key : Nat
  value : Nat
  score : Int
  weight : Int
  deriving Repr, DecidableEq, Inhabited

/-- Element access `h[i]` on the heap slice (indices produced by the heap
algorithms are always in range; out-of-range access is never reached where
this default matters, except in `heapPop` on an empty slice which is
modelled as `none` there). -/
def itemAt (l : List scoredItem) (i : Nat) : scoredItem :=
  l.getD i default

/-- `priorityHeap.Swap`: `h[i], h[j] = h[j], h[i]`. -/
def hswap (l : List scoredItem) (i j : Nat) : List scoredItem :=
  (l.set i (itemAt l j)).set j (itemAt l i)

/-- `container/heap.up`: sift the element at index `j` towards the root
while it is `Less` than its parent.  `priorityHeap.Less i j` is
`h[i].score < h[j].score`. -/
def heapUp (l : List scoredItem) (j : Nat) : List scoredItem :=
  if h0 : j = 0 then l
  else
    if (itemAt l j).score < (itemAt l ((j - 1) / 2)).score then
      heapUp (hswap l ((j - 1) / 2) j) ((j - 1) / 2)
    else l
  termination_by j
  decreasing_by
    exact Nat.lt_of_le_of_lt (Nat.div_le_self _ 2) (Nat.pred_lt h0)

/-- The child index chosen by `container/heap.down`: the left child
`2*i+1`, or the right child `2*i+2` when it exists and is `Less`. -/
def downChild (l : List scoredItem) (i n : Nat) : Nat :=
  if 2 * i + 2 < n ∧ (itemAt l (2 * i + 2)).score < (itemAt l (2 * i + 1)).score
  then 2 * i + 2 else 2 * i + 1

theorem downChild_gt (l : List scoredItem) (i n : Nat) : i < downChild l i n := by
  unfold downChild; split <;> omega

theorem downChild_lt (l : List scoredItem) {i n : Nat} (h : 2 * i + 1 < n) :
    downChild l i n < n := by
  unfold downChild; split <;> omega

/-- `container/heap.down`: sift the element at index `i` down within the
prefix of length `n`, returning the final list together with the final
index (Go's `down` returns `i > i0`, recovered by comparing the returned
index with the start index). -/
def heapDownAux (l : List scoredItem) (i n : Nat) : List scoredItem × Nat :=
  if h1 : 2 * i + 1 < n then
    if (itemAt l (downChild l i n)).score < (itemAt l i).score then
      heapDownAux (hswap l i (downChild l i n)) (downChild l i n) n
    else (l, i)
  else (l, i)
  termination_by n - i
  decreasing_by
    have := downChild_gt l i n
    have := downChild_lt l h1
    omega

/-- `heap.Push`: append (the interface `Push`) then sift up from the last
index. -/
def heapPush (l : List scoredItem) (x : scoredItem) : List scoredItem :=
  heapUp (l ++ [x]) l.length

/-- `heap.Pop`: swap the root with the last element, sift down within the
shortened prefix, and remove the last element.  On an empty heap Go
executes `h.Swap(0, -1)`, an index-out-of-range panic, modelled as
`none`. -/
def heapPop (l : List scoredItem) : Option (scoredItem × List scoredItem) :=
  match l with
  | [] => none
  | a :: t =>
    let n := (a :: t).length - 1
    let l1 := (heapDownAux (hswap (a :: t) 0 n) 0 n).1
    some (itemAt l1 n, l1.take n)

/-- `heap.Fix`: `if !down(h, i, h.Len()) { up(h, i) }` (Go's `down` reports
whether the index moved; when it did not move it also left the slice
unchanged). -/
def heapFix (l : List scoredItem) (i : Nat) : List scoredItem :=
  if (heapDownAux l i l.length).2 > i then (heapDownAux l i l.length).1
  else heapUp (heapDownAux l i l.length).1 i

/-- `heap.Remove`: swap index `i` with the last element, re-establish heap
order around `i` within the shortened prefix, then remove the last
element.  Empty-slice access again modelled as `none` (unreachable at its
single call site, which has `0 < i < h.Len()`). -/
def heapRemove (l : List scoredItem) (i : Nat) : Option (scoredItem × List scoredItem) :=
  match l with
  | [] => none
  | a :: t =>
    let n := (a :: t).length - 1
    if i = n then some (itemAt (a :: t) n, (a :: t).take n)
    else
      let l1 := hswap (a :: t) i n
      let p := heapDownAux l1 i n
      let l2 := if p.2 > i then p.1 else heapUp p.1 i
      some (itemAt l2 n, l2.take n)

/-- `Swap` preserves the slice length. -/
theorem hswap_length (l : List scoredItem) (i j : Nat) :
    (hswap l i j).length = l.length := by
  simp [hswap]

/-- `up` preserves the slice length. -/
theorem heapUp_length (l : List scoredItem) (j : Nat) :
    (heapUp l j).length = l.length := by
  induction j using Nat.strong_induction_on generalizing l with
  | _ j ih =>
    rw [heapUp]
    split
    · rfl
    · split
      · rename_i h0 _
        have hlt : (j - 1) / 2 < j :=
          Nat.lt_of_le_of_lt (Nat.div_le_self _ 2) (by omega)
        rw [ih _ hlt, hswap_length]
      · rfl

theorem heapDownAux_length_aux (k : Nat) :
    ∀ (l : List scoredItem) (i n : Nat), n - i ≤ k →
      (heapDownAux l i n).1.length = l.length := by
  induction k with
  | zero =>
    intro l i n hk
    rw [heapDownAux]
    split
    · omega
    · rfl
  | succ k ih =>
    intro l i n hk
    rw [heapDownAux]
    split
    · split
      · rename_i h1 _
        have hgt := downChild_gt l i n
        rw [ih _ _ _ (by omega), hswap_length]
      · rfl
    · rfl

/-- `down` preserves the slice length. -/
theorem heapDownAux_length (l : List scoredItem) (i n : Nat) :
    (heapDownAux l i n).1.length = l.length :=
  heapDownAux_length_aux (n - i) l i n le_rfl

/-- A successful `heap.Pop` shortens the slice by one. -/
theorem heapPop_length {l l2 : List scoredItem} {x : scoredItem}
    (h : heapPop l = some (x, l2)) : l2.length = l.length - 1 ∧ l ≠ [] := by
  match l with
  | [] => simp [heapPop] at h
  | a :: t =>
    simp only [heapPop] at h
    cases h
    refine ⟨?_, by simp⟩
    simp [List.length_take, heapDownAux_length, hswap_length]

/-- The `ScoreCache` struct.  `items` is the Go map `key -> *scoredItem`
(keys are pairwise distinct in every state the operations construct),
`evictList` the heap slice.  `size` (the capacity), `expiration` and the
statistics counters live in the embedded `baseCache`; `expiration` is
carried because the builder stores it, although no ScoreCache operation
reads it.  The hit/miss counters themselves are fields of `baseCache`
(not under src/), modelled from the spec as two monotone counters. -/
structure ScoreCache where
  items : List scoredItem
  evictList : List scoredItem
  computeScore : Nat → Int
  computeWeight : Nat → Int
  totalWeight : Int
  size : Int
  expiration : Option Int
  loaderFunc : Option (Nat → Nat)
  hitCount : Nat
  missCount : Nat
  deriving Inhabited

/-- `newScoreCache` composed with `buildCache`: fresh empty cache. -/
def mkCache (size : Int) (scoreFn weightFn : Nat → Int) : ScoreCache :=
  { items := [], evictList := [], computeScore := scoreFn,
    computeWeight := weightFn, totalWeight := 0, size := size,
    expiration := none, loaderFunc := none, hitCount := 0, missCount := 0 }

/-- `ScoreCache.getItem(key, count)`: map lookup; on the `count` path the
miss/hit counter is incremented (`IncrMissCount` / `IncrHitCount` live in
`baseCache`, not under src/; modelled from the spec as `+1` on the
corresponding counter). -/
def getItem (sc : ScoreCache) (key : Nat) (count : Bool) :
    Option scoredItem × ScoreCache :=
  match sc.items.find? (fun it => it.key == key) with
  | none =>
      (none, if count then { sc with missCount := sc.missCount + 1 } else sc)
  | some it =>
      (some it, if count then { sc with hitCount := sc.hitCount + 1 } else sc)

/-- `ScoreCache.getIndex`: linear scan of the heap slice for the key
(`-1` plus `KeyNotFoundError` on failure, modelled as `none`). -/
def getIndex (sc : ScoreCache) (key : Nat) : Option Nat :=
  sc.evictList.findIdx? (fun it => it.key == key)

/-- The eviction loop body of `ScoreCache.evictUntil`:
`for totalWeight > targetWeight { item = heap.Pop(); delete(items, key);
evictedCallback; totalWeight -= item.weight }`.  Returns the final heap,
map, weight and the evicted entries in eviction order; `none` models the
panic of `heap.Pop` on an empty heap. -/
def evictLoop (l items : List scoredItem) (tw target : Int) :
    Option (List scoredItem × List scoredItem × Int × List scoredItem) :=
  if tw > target then
    match h : heapPop l with
    | none => none
    | some (item, l2) =>
      match evictLoop l2 (items.filter (fun it => !(it.key == item.key)))
          (tw - item.weight) target with
      | none => none
      | some (lf, itf, twf, evs) => some (lf, itf, twf, item :: evs)
  else some (l, items, tw, [])
  termination_by l.length
  decreasing_by
    obtain ⟨hlen, hne⟩ := heapPop_length h
    have : 0 < l.length := List.length_pos.mpr hne
    omega

/-- `ScoreCache.evictUntil(w)`: `targetWeight := totalWeight - w`, then the
loop above. -/
def evictUntil (sc : ScoreCache) (w : Int) :
    Option (ScoreCache × List scoredItem) :=
  match evictLoop sc.evictList sc.items sc.totalWeight (sc.totalWeight - w) with
  | none => none
  | some (l, its, tw, evs) =>
      some ({ sc with evictList := l, items := its, totalWeight := tw }, evs)

/-- `ScoreCache.set`.  Existing key: the shared `*scoredItem` is updated in
place (score/weight recomputed, `totalWeight` adjusted by the delta) —
reflected here by rewriting the entry in both `items` and `evictList` —
and `heap.Fix` re-positions it (`heap.Fix(-1)` is a no-op in Go, the
`none` branch of `getIndex`).  New key: if `totalWeight + weight > size`
run `evictUntil(weight)`, then push and account.  The returned list holds
the evicted-callback invocations; `none` models a panic inside
`evictUntil`. -/
def setOp (sc : ScoreCache) (key value : Nat) :
    Option (ScoreCache × List scoredItem) :=
  match (getItem sc key false).1 with
  | some existing =>
    let newItem : scoredItem :=
      { key := existing.key, value := value,
        score := sc.computeScore value, weight := sc.computeWeight value }
    let items2 := sc.items.map (fun it => if it.key == key then newItem else it)
    let list2 := sc.evictList.map (fun it => if it.key == key then newItem else it)
    let tw2 := sc.totalWeight - existing.weight + newItem.weight
    -- `getIndex` on the updated cache is `findIdx?` over its heap slice
    -- (`list2`); `heap.Fix` then mutates only the heap slice.
    let list3 : List scoredItem :=
      match list2.findIdx? (fun it => it.key == key) with
      | some idx => heapFix list2 idx
      | none => list2
    some ({ sc with items := items2, evictList := list3, totalWeight := tw2 }, [])
  | none =>
    let item : scoredItem :=
      { key := key, value := value,
        score := sc.computeScore value, weight := sc.computeWeight value }
    if sc.totalWeight + item.weight > sc.size then
      match evictUntil sc item.weight with
      | none => none
      | some (sc1, evs) =>
        some ({ sc1 with evictList := heapPush sc1.evictList item,
                         items := sc1.items ++ [item],
                         totalWeight := sc1.totalWeight + item.weight }, evs)
    else
      some ({ sc with evictList := heapPush sc.evictList item,
                      items := sc.items ++ [item],
                      totalWeight := sc.totalWeight + item.weight }, [])

/-- `ScoreCache.Remove`.  Note the source tests `if index > 0` (not
`>= 0`): only then is the entry removed from the heap, the weight
subtracted, the callback fired and `true` returned; the map deletion has
already happened unconditionally. -/
def removeOp (sc : ScoreCache) (key : Nat) :
    Bool × ScoreCache × List scoredItem :=
  match sc.items.find? (fun it => it.key == key) with
  | some item =>
    let sc1 : ScoreCache :=
      { sc with items := sc.items.filter (fun it => !(it.key == key)) }
    match sc1.evictList.findIdx? (fun it => it.key == key) with
    | some index =>
      if index > 0 then
        match heapRemove sc1.evictList index with
        | some (_, l2) =>
          (true, { sc1 with evictList := l2,
                            totalWeight := sc1.totalWeight - item.weight },
           [item])
        | none => (false, sc1, [])
      else (false, sc1, [])
    | none => (false, sc1, [])
  | none => (false, sc, [])

/-- `ScoreCache.Purge`, i.e. `reset()`: fresh empty heap and map.  The
source does not touch `totalWeight` and contains no callback call
site. -/
def purgeOp (sc : ScoreCache) : ScoreCache × List scoredItem :=
  ({ sc with items := [], evictList := [] }, [])

/-- `ScoreCache.GetALL`: copy the live `(key, value)` pairs into a fresh
map; nothing else is read or written. -/
def getALLOp (sc : ScoreCache) : List (Nat × Nat) × ScoreCache :=
  (sc.items.map (fun it => (it.key, it.value)), sc)

/-- `ScoreCache.GetIFPresent`: `getItem(key, true)`; returns the value if
the item is non-nil, `KeyNotFoundError` (modelled as `none`) otherwise. -/
def getIFPresentOp (sc : ScoreCache) (key : Nat) : Option Nat × ScoreCache :=
  match getItem sc key true with
  | (some it, sc1) => (some it.value, sc1)
  | (none, sc1) => (none, sc1)

/-- `ScoreCache.Get`: `getItem(key, true)`; on a miss, `getWithLoader`.
Modelled from the spec: the load coordinator (`baseCache.load`, not under
src/) runs the producer once and commits it through `set` (which uses
`getItem(key, false)`, so no second counter increment); with no loader
configured the miss surfaces as `KeyNotFoundError` (`none`).  The outer
`Option` models a panic inside the committing `set`. -/
def getOp (sc : ScoreCache) (key : Nat) :
    Option (Option Nat × ScoreCache × List scoredItem) :=
  match getItem sc key true with
  | (some it, sc1) => some (some it.value, sc1, [])
  | (none, sc1) =>
    match sc1.loaderFunc with
    | none => some (none, sc1, [])
    | some f =>
      match setOp sc1 key (f key) with
      | none => none
      | some (sc2, evs) => some (some (f key), sc2, evs)

/-- `ScoreCache.Len`. -/
def lenOp (sc : ScoreCache) : Nat := sc.items.length

/-- Modelled from the spec (the stats struct of `baseCache` is not under
src/): `LookupCount == HitCount + MissCount`. -/
def LookupCount (sc : ScoreCache) : Nat := sc.hitCount + sc.missCount

/-- Modelled from the spec (the stats struct of `baseCache` is not under
src/): `HitRate = hit / lookup`, zero when the lookup count is zero. -/
def HitRate (sc : ScoreCache) : ℚ :=
  if LookupCount sc = 0 then 0 else (sc.hitCount : ℚ) / (LookupCount sc : ℚ)

/-- A sequence of `Set` calls, accumulating the evicted-callback events. -/
def runSets (sc : ScoreCache) : List (Nat × Nat) → Option (ScoreCache × List scoredItem)
  | [] => some (sc, [])
  | (k, v) :: rest =>
    match setOp sc k v with
    | none => none
    | some (sc2, evs) =>
      match runSets sc2 rest with
      | none => none
      | some (scf, evs2) => some (scf, evs ++ evs2)

/-! ## Specification-level predicates and concrete sample states -/

/-- The score stored at index `i` of the heap slice (`Less` compares these). -/
def val (l : List scoredItem) (i : Nat) : Int := (itemAt l i).score

/-- Heap order on the prefix of length `n`: every non-root entry in the
prefix scores at least its parent (`Less` never holds from parent to
child). -/
def heapPropTo (l : List scoredItem) (n : Nat) : Prop :=
  ∀ c, c < n → 0 < c → val l ((c - 1) / 2) ≤ val l c

/-- Heap order on the whole slice: the invariant `container/heap`
maintains. -/
def heapProp (l : List scoredItem) : Prop := heapPropTo l l.length

/-- Key distinctness: the Go map holds at most one entry per key. -/
def keysNodup (l : List scoredItem) : Prop :=
  (l.map (fun it => it.key)).Nodup

/-- The state invariant of the score cache: the heap slice is
heap-ordered, the map and the heap hold the same entries, and map keys are
pairwise distinct. -/
def CacheInv (sc : ScoreCache) : Prop :=
  heapProp sc.evictList ∧ List.Perm sc.items sc.evictList ∧ keysNodup sc.items

/-- The live entries remaining after peeling the listed evictions off the
map, one key at a time, in order (mirrors the `delete` in the loop). -/
def removedBy (items evs : List scoredItem) : List scoredItem :=
  evs.foldl (fun acc e => acc.filter (fun it => !(it.key == e.key))) items

/-- Each listed eviction removes the entry of strictly least score among
the entries still live at its step. -/
def StepwiseMin (items evs : List scoredItem) : Prop :=
  ∀ k, (hk : k < evs.length) →
    evs.get ⟨k, hk⟩ ∈ removedBy items (evs.take k) ∧
    ∀ o ∈ removedBy items (evs.take k), o.key ≠ (evs.get ⟨k, hk⟩).key →
      (evs.get ⟨k, hk⟩).score < o.score

/-- The cache reached from `mkCache 10 (const 1) (const 1)` by `Set 1 2`. -/
def sampleCache : ScoreCache :=
  { items := [⟨1, 2, 1, 1⟩], evictList := [⟨1, 2, 1, 1⟩],
    computeScore := fun _ => 1, computeWeight := fun _ => 1,
    totalWeight := 1, size := 10, expiration := none, loaderFunc := none,
    hitCount := 0, missCount := 0 }

/-- The cache reached from `mkCache 10 id id` by `Set 1 3; Set 2 4`
(scores 3 and 4, weights 3 and 4, aggregate weight 7). -/
def twoCache : ScoreCache :=
  { items := [⟨1, 3, 3, 3⟩, ⟨2, 4, 4, 4⟩],
    evictList := [⟨1, 3, 3, 3⟩, ⟨2, 4, 4, 4⟩],
    computeScore := fun v => (v : Int), computeWeight := fun v => (v : Int),
    totalWeight := 7, size := 10, expiration := none, loaderFunc := none,
    hitCount := 0, missCount := 0 }

/-! ## Basic facts about `itemAt`, `hswap` and the heap traversals -/


theorem itemAt_eq_getElem {l : List scoredItem} {i : Nat} (h : i < l.length) :
    itemAt l i = l[i] := by
  simp [itemAt, List.getD_eq_getElem?_getD, List.getElem?_eq_getElem h]

theorem itemAt_set_self {l : List scoredItem} {i : Nat} (x : scoredItem)
    (h : i < l.length) : itemAt (l.set i x) i = x := by
  simp [itemAt, List.getD_eq_getElem?_getD, List.getElem?_set_self h]

theorem itemAt_set_ne {l : List scoredItem} {i k : Nat} (x : scoredItem)
    (h : i ≠ k) : itemAt (l.set i x) k = itemAt l k := by
  simp [itemAt, List.getD_eq_getElem?_getD, List.getElem?_set_ne h]

theorem itemAt_hswap_fst {l : List scoredItem} {i j : Nat}
    (hi : i < l.length) (hj : j < l.length) :
    itemAt (hswap l i j) i = itemAt l j := by
  by_cases hij : i = j
  · subst hij
    unfold hswap
    rw [itemAt_set_self _ (by simpa using hi)]
  · unfold hswap
    rw [itemAt_set_ne _ (fun h => hij h.symm), itemAt_set_self _ hi]

theorem itemAt_hswap_snd {l : List scoredItem} {i j : Nat}
    (hj : j < l.length) :
    itemAt (hswap l i j) j = itemAt l i := by
  unfold hswap
  rw [itemAt_set_self _ (by simpa using hj)]

theorem itemAt_hswap_other {l : List scoredItem} {i j k : Nat}
    (hki : k ≠ i) (hkj : k ≠ j) :
    itemAt (hswap l i j) k = itemAt l k := by
  unfold hswap
  rw [itemAt_set_ne _ (fun h => hkj h.symm), itemAt_set_ne _ (fun h => hki h.symm)]

theorem count_set_aux (l : List scoredItem) (i : Nat) (b : scoredItem)
    (h : i < l.length) (a : scoredItem) :
    (l.set i b).count a + (if l[i] = a then 1 else 0)
      = l.count a + (if b = a then 1 else 0) := by
  rw [List.set_eq_take_cons_drop b h]
  conv_rhs => rw [← List.take_append_drop i l, ← List.getElem_cons_drop l i h]
  simp only [List.count_append, List.count_cons, beq_iff_eq]
  split_ifs <;> omega

theorem hswap_perm {l : List scoredItem} {i j : Nat}
    (hi : i < l.length) (hj : j < l.length) : hswap l i j ~ l := by
  rw [List.perm_iff_count]
  intro a
  have hj2 : j < (l.set i (itemAt l j)).length := by simpa using hj
  have h1 := count_set_aux (l.set i (itemAt l j)) j (itemAt l i) hj2 a
  have h2 := count_set_aux l i (itemAt l j) hi a
  have hread : (l.set i (itemAt l j))[j] = itemAt l j := by
    by_cases hij : i = j
    · subst hij; simp
    · rw [List.getElem_set_ne hij]
      exact (itemAt_eq_getElem hj).symm
  rw [hread] at h1
  unfold hswap
  rw [itemAt_eq_getElem hi] at h1
  rw [itemAt_eq_getElem hi]
  split_ifs at h1 h2 <;> omega

theorem heapUp_perm {l : List scoredItem} {j : Nat} (hj : j < l.length) :
    heapUp l j ~ l := by
  induction j using Nat.strong_induction_on generalizing l with
  | _ j ih =>
    rw [heapUp]
    split
    · exact List.Perm.refl l
    · split
      · rename_i h0 _
        have hlt : (j - 1) / 2 < j := by omega
        have hperm : hswap l ((j - 1) / 2) j ~ l :=
          hswap_perm (Nat.lt_trans hlt hj) hj
        exact (ih _ hlt (by rw [hswap_length]; exact Nat.lt_trans hlt hj)).trans hperm
      · exact List.Perm.refl l

theorem heapDownAux_perm_aux (k : Nat) :
    ∀ (l : List scoredItem) (i n : Nat), n - i ≤ k → n ≤ l.length →
      (heapDownAux l i n).1 ~ l := by
  induction k with
  | zero =>
    intro l i n hk hn
    rw [heapDownAux]
    split
    · omega
    · exact List.Perm.refl l
  | succ k ih =>
    intro l i n hk hn
    rw [heapDownAux]
    split
    · split
      · rename_i h1 _
        have hgt := downChild_gt l i n
        have hlt := downChild_lt l h1
        have hperm : hswap l i (downChild l i n) ~ l :=
          hswap_perm (by omega) (by omega)
        refine (ih _ _ _ (by omega) (by rw [hswap_length]; exact hn)).trans hperm
      · exact List.Perm.refl l
    · exact List.Perm.refl l

theorem heapDownAux_perm {l : List scoredItem} {i n : Nat} (hn : n ≤ l.length) :
    (heapDownAux l i n).1 ~ l :=
  heapDownAux_perm_aux (n - i) l i n le_rfl hn

theorem heapDownAux_high_aux (k : Nat) :
    ∀ (l : List scoredItem) (i n : Nat), n - i ≤ k →
      ∀ m, n ≤ m → itemAt (heapDownAux l i n).1 m = itemAt l m := by
  induction k with
  | zero =>
    intro l i n hk m hm
    rw [heapDownAux]
    split
    · omega
    · rfl
  | succ k ih =>
    intro l i n hk m hm
    rw [heapDownAux]
    split
    · split
      · rename_i h1 _
        have hgt := downChild_gt l i n
        have hlt := downChild_lt l h1
        rw [ih _ _ _ (by omega) m hm]
        exact itemAt_hswap_other (by omega) (by omega)
      · rfl
    · rfl

/-- `down` never touches indices at or beyond its bound `n`. -/
theorem heapDownAux_high {l : List scoredItem} {i n : Nat} {m : Nat}
    (hm : n ≤ m) : itemAt (heapDownAux l i n).1 m = itemAt l m :=
  heapDownAux_high_aux (n - i) l i n le_rfl m hm

theorem heapPush_perm (l : List scoredItem) (x : scoredItem) :
    heapPush l x ~ l ++ [x] :=
  heapUp_perm (by simp)

theorem heapPush_length (l : List scoredItem) (x : scoredItem) :
    (heapPush l x).length = l.length + 1 := by
  rw [heapPush, heapUp_length]; simp

theorem heapPop_perm {l l2 : List scoredItem} {it : scoredItem}
    (h : heapPop l = some (it, l2)) : l ~ it :: l2 := by
  match l with
  | [] => simp [heapPop] at h
  | a :: t =>
    simp only [heapPop, List.length_cons, Nat.add_sub_cancel] at h
    cases h
    have hlen1 : (heapDownAux (hswap (a :: t) 0 t.length) 0 t.length).1.length
        = t.length + 1 := by
      rw [heapDownAux_length, hswap_length, List.length_cons]
    set l1 := (heapDownAux (hswap (a :: t) 0 t.length) 0 t.length).1 with hl1
    have hperm : l1 ~ a :: t := by
      refine (heapDownAux_perm ?_).trans (hswap_perm (by simp) (by simp)) <;>
        rw [hswap_length] <;> simp
    have hget : t.length < l1.length := by omega
    have hdec : l1 = l1.take t.length ++ [l1[t.length]] := by
      conv_lhs => rw [← List.take_append_drop t.length l1]
      congr 1
      rw [← List.getElem_cons_drop l1 t.length hget]
      have hnil : l1.drop (t.length + 1) = [] := List.drop_eq_nil_of_le (by omega)
      rw [hnil]
    rw [itemAt_eq_getElem hget]
    calc a :: t ~ l1 := hperm.symm
      _ = l1.take t.length ++ [l1[t.length]] := hdec
      _ ~ l1[t.length] :: l1.take t.length := List.perm_append_singleton _ _

theorem heapFix_perm {l : List scoredItem} {i : Nat} (hi : i < l.length) :
    heapFix l i ~ l := by
  have hperm : (heapDownAux l i l.length).1 ~ l := heapDownAux_perm le_rfl
  unfold heapFix
  split
  · exact hperm
  · refine (heapUp_perm ?_).trans hperm
    rw [heapDownAux_length]; exact hi

/-! ## The heap-order invariant and correctness of the sift operations -/


theorem val_hswap_fst {l : List scoredItem} {i j : Nat}
    (hi : i < l.length) (hj : j < l.length) : val (hswap l i j) i = val l j := by
  simp [val, itemAt_hswap_fst hi hj]

theorem val_hswap_snd {l : List scoredItem} {i j : Nat}
    (hj : j < l.length) : val (hswap l i j) j = val l i := by
  simp [val, itemAt_hswap_snd hj]

theorem val_hswap_other {l : List scoredItem} {i j k : Nat}
    (hki : k ≠ i) (hkj : k ≠ j) : val (hswap l i j) k = val l k := by
  simp [val, itemAt_hswap_other hki hkj]

theorem val_append_lt {l m : List scoredItem} {k : Nat} (hk : k < l.length) :
    val (l ++ m) k = val l k := by
  simp [val, itemAt, List.getD_eq_getElem?_getD, List.getElem?_append, hk]

theorem val_take {l : List scoredItem} {n m : Nat} (h : m < n) :
    val (l.take n) m = val l m := by
  simp [val, itemAt, List.getD_eq_getElem?_getD, List.getElem?_take, h]

theorem downChild_cases (l : List scoredItem) (i n : Nat) :
    downChild l i n = 2 * i + 1 ∨ downChild l i n = 2 * i + 2 := by
  unfold downChild; split
  · right; rfl
  · left; rfl

theorem downChild_min (l : List scoredItem) {i n : Nat} (h1 : 2 * i + 1 < n) :
    val l (downChild l i n) ≤ val l (2 * i + 1)
      ∧ (2 * i + 2 < n → val l (downChild l i n) ≤ val l (2 * i + 2)) := by
  unfold downChild
  split
  · rename_i hc
    exact ⟨le_of_lt hc.2, fun _ => le_rfl⟩
  · rename_i hc
    refine ⟨le_rfl, fun h2 => ?_⟩
    rw [not_and] at hc
    exact not_lt.mp (hc h2)

/-- The root of a heap-ordered prefix has the least score in the prefix. -/
theorem heapPropTo_root {l : List scoredItem} {n : Nat} (h : heapPropTo l n) :
    ∀ c, c < n → val l 0 ≤ val l c := by
  intro c
  induction c using Nat.strong_induction_on with
  | _ c ih =>
    intro hc
    rcases Nat.eq_zero_or_pos c with hc0 | hc0
    · subst hc0; exact le_rfl
    · exact le_trans (ih ((c - 1) / 2) (by omega) (by omega)) (h c hc hc0)

/-- Correctness of `up`: if every parent/child pair except possibly the one
above `j` is in heap order, and additionally the grandparent of `j` is
below all children of `j`, then sifting up from `j` restores heap order
everywhere. -/
theorem heapUp_heapProp : ∀ (j : Nat) (l : List scoredItem), j < l.length →
    (∀ c, c < l.length → 0 < c → c ≠ j → val l ((c - 1) / 2) ≤ val l c) →
    (0 < j → ∀ c, c < l.length → 0 < c → (c - 1) / 2 = j →
      val l ((j - 1) / 2) ≤ val l c) →
    heapProp (heapUp l j) := by
  intro j
  induction j using Nat.strong_induction_on with
  | _ j ih =>
    intro l hj hA hB
    rw [heapUp]
    split
    · rename_i h0
      subst h0
      intro c hc hc0
      exact hA c hc hc0 (by omega)
    · rename_i h0
      split
      · rename_i hlt
        have hij : (j - 1) / 2 < j := by omega
        have hil : (j - 1) / 2 < l.length := by omega
        have v1 : val (hswap l ((j - 1) / 2) j) ((j - 1) / 2) = val l j :=
          val_hswap_fst hil hj
        have v2 : val (hswap l ((j - 1) / 2) j) j = val l ((j - 1) / 2) :=
          val_hswap_snd hj
        have vo : ∀ c, c ≠ (j - 1) / 2 → c ≠ j →
            val (hswap l ((j - 1) / 2) j) c = val l c :=
          fun c hci hcj => val_hswap_other hci hcj
        have hlt2 : val l j < val l ((j - 1) / 2) := hlt
        refine ih _ hij _ (by rw [hswap_length]; exact hil) ?_ ?_
        · intro c hc hc0 hci
          rw [hswap_length] at hc
          by_cases hcj : c = j
          · rw [hcj, v1, v2]
            exact le_of_lt hlt2
          · by_cases hpar : (c - 1) / 2 = (j - 1) / 2
            · rw [vo c hci hcj, hpar, v1]
              have hedge := hA c hc hc0 hcj
              rw [hpar] at hedge
              exact le_trans (le_of_lt hlt2) hedge
            · by_cases hpj : (c - 1) / 2 = j
              · rw [vo c hci hcj, hpj, v2]
                exact hB (by omega) c hc hc0 hpj
              · rw [vo c hci hcj, vo _ hpar hpj]
                exact hA c hc hc0 hcj
        · intro h0 c hc hc0 hpar
          rw [hswap_length] at hc
          have hgi : ((j - 1) / 2 - 1) / 2 ≠ (j - 1) / 2 := by omega
          have hgj : ((j - 1) / 2 - 1) / 2 ≠ j := by omega
          rw [vo _ hgi hgj]
          by_cases hcj : c = j
          · rw [hcj, v2]
            exact hA _ hil h0 (by omega)
          · have hci : c ≠ (j - 1) / 2 := by omega
            rw [vo c hci hcj]
            have t1 := hA _ hil h0 (by omega)
            have t2 := hA c hc hc0 hcj
            rw [hpar] at t2
            exact le_trans t1 t2
      · rename_i hnlt
        intro c hc hc0
        by_cases hcj : c = j
        · subst hcj
          exact not_lt.mp hnlt
        · exact hA c hc hc0 hcj

/-- Pushing onto a heap-ordered slice preserves heap order. -/
theorem heapPush_heapProp {l : List scoredItem} (x : scoredItem)
    (h : heapProp l) : heapProp (heapPush l x) := by
  unfold heapPush
  apply heapUp_heapProp l.length (l ++ [x]) (by simp)
  · intro c hc hc0 hcj
    simp only [List.length_append, List.length_cons, List.length_nil] at hc
    have hcl : c < l.length := by omega
    have hpl : (c - 1) / 2 < l.length := by omega
    rw [val_append_lt hcl, val_append_lt hpl]
    exact h c hcl hc0
  · intro h0 c hc hc0 hpar
    simp only [List.length_append, List.length_cons, List.length_nil] at hc
    exact absurd hpar (by omega)

/-- Main lemma on `down`, run within the prefix of length `n`.  Hypotheses:
every parent/child pair in the prefix not involving position `i` is in heap
order, and the parent of `i` is below every child of `i`.  Conclusions
about the final index `f` and slice: the children of `f` are above `f`;
every pair not emanating from `f` is in order, except that the pair above
`f` is only claimed when the index moved; the parent of `f` is below the
children of `f`; `i ≤ f`; and an unmoved run leaves the slice
unchanged. -/
theorem heapDownAux_go (k : Nat) : ∀ (l : List scoredItem) (i n : Nat),
    n - i ≤ k → n ≤ l.length →
    (∀ c, c < n → 0 < c → c ≠ i → (c - 1) / 2 ≠ i → val l ((c - 1) / 2) ≤ val l c) →
    (0 < i → ∀ c, c < n → 0 < c → (c - 1) / 2 = i → val l ((i - 1) / 2) ≤ val l c) →
    (∀ c, c < n → 0 < c → (c - 1) / 2 = (heapDownAux l i n).2 →
      val (heapDownAux l i n).1 (heapDownAux l i n).2 ≤ val (heapDownAux l i n).1 c) ∧
    (∀ c, c < n → 0 < c → (c - 1) / 2 ≠ (heapDownAux l i n).2 →
      (c = (heapDownAux l i n).2 → i < (heapDownAux l i n).2) →
      val (heapDownAux l i n).1 ((c - 1) / 2) ≤ val (heapDownAux l i n).1 c) ∧
    (0 < (heapDownAux l i n).2 → ∀ c, c < n → 0 < c →
      (c - 1) / 2 = (heapDownAux l i n).2 →
      val (heapDownAux l i n).1 (((heapDownAux l i n).2 - 1) / 2)
        ≤ val (heapDownAux l i n).1 c) ∧
    i ≤ (heapDownAux l i n).2 ∧
    ((heapDownAux l i n).2 = i → (heapDownAux l i n).1 = l) := by
  induction k with
  | zero =>
    intro l i n hk hn hA hB
    rw [heapDownAux]
    split
    · rename_i h1
      exact absurd h1 (by omega)
    · refine ⟨?_, ?_, fun h0 c hc hc0 hpar => hB h0 c hc hc0 hpar, le_rfl,
        fun _ => rfl⟩
      · intro c hc hc0 hpar
        exact absurd hpar (by omega)
      · intro c hc hc0 hpar hside
        by_cases hci : c = i
        · exact absurd (hside hci) (lt_irrefl i)
        · exact hA c hc hc0 hci hpar
  | succ k ih =>
    intro l i n hk hn hA hB
    rw [heapDownAux]
    split
    · rename_i h1
      split
      · rename_i hlt
        have hjc := downChild_cases l i n
        have hji : i < downChild l i n := downChild_gt l i n
        have hjn : downChild l i n < n := downChild_lt l h1
        have hmin := downChild_min l h1
        generalize hJ : downChild l i n = j at *
        have hjl : j < l.length := by omega
        have hil : i < l.length := by omega
        have v1 : val (hswap l i j) i = val l j := val_hswap_fst hil hjl
        have v2 : val (hswap l i j) j = val l i := val_hswap_snd hjl
        have vo : ∀ c, c ≠ i → c ≠ j → val (hswap l i j) c = val l c :=
          fun c hci hcj => val_hswap_other hci hcj
        have hlt2 : val l j < val l i := hlt
        have hA2 : ∀ c, c < n → 0 < c → c ≠ j → (c - 1) / 2 ≠ j →
            val (hswap l i j) ((c - 1) / 2) ≤ val (hswap l i j) c := by
          intro c hc hc0 hcj hpj
          by_cases hci : c = i
          · have hi0 : 0 < i := by omega
            have hpii : (i - 1) / 2 ≠ i := by omega
            have hpij : (i - 1) / 2 ≠ j := by omega
            rw [hci, vo _ hpii hpij, v1]
            exact hB hi0 j hjn (by omega) (by omega)
          · by_cases hpar : (c - 1) / 2 = i
            · rw [vo c hci hcj, hpar, v1]
              rcases (by omega : c = 2 * i + 1 ∨ c = 2 * i + 2) with hc1 | hc1
              · rw [hc1]; exact hmin.1
              · rw [hc1]; exact hmin.2 (by omega)
            · rw [vo c hci hcj, vo _ hpar hpj]
              exact hA c hc hc0 hci hpar
        have hB2 : 0 < j → ∀ c, c < n → 0 < c → (c - 1) / 2 = j →
            val (hswap l i j) ((j - 1) / 2) ≤ val (hswap l i j) c := by
          intro hj0 c hc hc0 hpar
          have hci : c ≠ i := by omega
          have hcj : c ≠ j := by omega
          rw [(by omega : (j - 1) / 2 = i), v1, vo c hci hcj]
          have t := hA c hc hc0 hci (by omega)
          rw [hpar] at t
          exact t
        obtain ⟨ih1, ih2, ih3, ih4, ih5⟩ :=
          ih (hswap l i j) j n (by omega) (by rw [hswap_length]; exact hn) hA2 hB2
        refine ⟨ih1, ?_, ih3, by omega, fun hr2 => absurd hr2 (by omega)⟩
        intro c hc hc0 hpar hside
        by_cases hmv : j < (heapDownAux (hswap l i j) j n).2
        · exact ih2 c hc hc0 hpar (fun _ => hmv)
        · have hr2 : (heapDownAux (hswap l i j) j n).2 = j := by omega
          have hl2 : (heapDownAux (hswap l i j) j n).1 = hswap l i j := ih5 hr2
          rw [hr2] at hpar
          rw [hl2]
          by_cases hcj : c = j
          · rw [hcj, (by omega : (j - 1) / 2 = i), v1, v2]
            exact le_of_lt hlt2
          · exact hA2 c hc hc0 hcj hpar
      · rename_i hnlt
        have hjc := downChild_cases l i n
        have hjn : downChild l i n < n := downChild_lt l h1
        have hmin := downChild_min l h1
        have hge : val l i ≤ val l (downChild l i n) := not_lt.mp hnlt
        refine ⟨?_, ?_, fun h0 c hc hc0 hpar => hB h0 c hc hc0 hpar, le_rfl,
          fun _ => rfl⟩
        · intro c hc hc0 hpar
          rcases (by omega : c = 2 * i + 1 ∨ c = 2 * i + 2) with hc1 | hc1
          · rw [hc1]; exact le_trans hge hmin.1
          · rw [hc1]; exact le_trans hge (hmin.2 (by omega))
        · intro c hc hc0 hpar hside
          by_cases hci : c = i
          · exact absurd (hside hci) (lt_irrefl i)
          · exact hA c hc hc0 hci hpar
    · rename_i h1
      refine ⟨?_, ?_, fun h0 c hc hc0 hpar => hB h0 c hc hc0 hpar, le_rfl,
        fun _ => rfl⟩
      · intro c hc hc0 hpar
        exact absurd hpar (by omega)
      · intro c hc hc0 hpar hside
        by_cases hci : c = i
        · exact absurd (hside hci) (lt_irrefl i)
        · exact hA c hc hc0 hci hpar

/-- A successful `heap.Pop` from a heap-ordered slice leaves a heap-ordered
slice. -/
theorem heapPop_heapProp {l l2 : List scoredItem} {it : scoredItem}
    (h : heapProp l) (hp : heapPop l = some (it, l2)) : heapProp l2 := by
  match l with
  | [] => simp [heapPop] at hp
  | a :: t =>
    simp only [heapPop, List.length_cons, Nat.add_sub_cancel] at hp
    cases hp
    have hlen0 : (hswap (a :: t) 0 t.length).length = t.length + 1 := by
      rw [hswap_length]; simp
    have hgo := heapDownAux_go t.length (hswap (a :: t) 0 t.length) 0 t.length
      (by omega) (by omega)
      (by
        intro c hc hc0 hci hpar
        have hpc : (c - 1) / 2 < c := by omega
        rw [val_hswap_other hci (by omega), val_hswap_other hpar (by omega)]
        exact h c (by simp; omega) hc0)
      (fun h0 => absurd h0 (lt_irrefl 0))
    have hfull : heapPropTo (heapDownAux (hswap (a :: t) 0 t.length) 0 t.length).1
        t.length := by
      intro c hc hc0
      by_cases hpar : (c - 1) / 2 = (heapDownAux (hswap (a :: t) 0 t.length) 0 t.length).2
      · rw [hpar]
        exact hgo.1 c hc hc0 hpar
      · refine hgo.2.1 c hc hc0 hpar (fun hc2 => by omega)
    have hlen1 : (heapDownAux (hswap (a :: t) 0 t.length) 0 t.length).1.length
        = t.length + 1 := by
      rw [heapDownAux_length, hlen0]
    intro c hc hc0
    simp only [List.length_take, hlen1] at hc
    have hc2 : c < t.length := by omega
    rw [val_take hc2, val_take (by omega)]
    exact hfull c hc2 hc0

/-- A successful `heap.Pop` from a heap-ordered slice returns the root,
which scores at most every element of the slice. -/
theorem heapPop_min {l l2 : List scoredItem} {it : scoredItem}
    (h : heapProp l) (hp : heapPop l = some (it, l2)) :
    ∀ x ∈ l, it.score ≤ x.score := by
  match l with
  | [] => simp [heapPop] at hp
  | a :: t =>
    simp only [heapPop, List.length_cons, Nat.add_sub_cancel] at hp
    have hit : it = itemAt (heapDownAux (hswap (a :: t) 0 t.length) 0 t.length).1
        t.length := by
      cases hp; rfl
    have hroot : it = itemAt (a :: t) 0 := by
      rw [hit, heapDownAux_high le_rfl, itemAt_hswap_snd (by simp)]
    intro x hx
    obtain ⟨idx, hidx, hxeq⟩ := List.mem_iff_getElem.mp hx
    have hrm := heapPropTo_root h idx hidx
    rw [hroot]
    have hv : val (a :: t) idx = x.score := by
      rw [val, itemAt_eq_getElem hidx, hxeq]
    rw [← hv]
    exact hrm

/-- Correctness of `heap.Fix` at index `i`: if every parent/child pair not
involving `i` is in heap order and the parent of `i` is below the children
of `i` (the state after overwriting the entry at `i` of a heap), then
`Fix` restores heap order. -/
theorem heapFix_heapProp (l : List scoredItem) (i : Nat) (hi : i < l.length)
    (hA : ∀ c, c < l.length → 0 < c → c ≠ i → (c - 1) / 2 ≠ i →
      val l ((c - 1) / 2) ≤ val l c)
    (hB : 0 < i → ∀ c, c < l.length → 0 < c → (c - 1) / 2 = i →
      val l ((i - 1) / 2) ≤ val l c) :
    heapProp (heapFix l i) := by
  obtain ⟨g1, g2, g3, g4, g5⟩ :=
    heapDownAux_go (l.length - i) l i l.length le_rfl le_rfl hA hB
  unfold heapFix
  split
  · rename_i hmv
    have hlen : (heapDownAux l i l.length).1.length = l.length :=
      heapDownAux_length l i l.length
    intro c hc hc0
    rw [hlen] at hc
    by_cases hpar : (c - 1) / 2 = (heapDownAux l i l.length).2
    · rw [hpar]
      exact g1 c hc hc0 hpar
    · exact g2 c hc hc0 hpar (fun _ => hmv)
  · rename_i hnm
    have hr2 : (heapDownAux l i l.length).2 = i := by omega
    have hl1 : (heapDownAux l i l.length).1 = l := g5 hr2
    rw [hl1]
    apply heapUp_heapProp i l hi
    · intro c hc hc0 hci
      by_cases hpar : (c - 1) / 2 = i
      · have t := g1 c hc hc0 (by rw [hr2]; exact hpar)
        rw [hl1, hr2] at t
        rw [hpar]
        exact t
      · exact hA c hc hc0 hci hpar
    · exact hB

/-! ## Lookup characterisations and the eviction-loop lemmas -/


theorem getItem_fst_none {sc : ScoreCache} {key : Nat} {c : Bool}
    (h : ∀ it ∈ sc.items, it.key ≠ key) : (getItem sc key c).1 = none := by
  unfold getItem
  have hf : sc.items.find? (fun it => it.key == key) = none := by
    rw [List.find?_eq_none]
    intro x hx
    simp [h x hx]
  rw [hf]

theorem getItem_none_forall {sc : ScoreCache} {key : Nat} {c : Bool}
    (h : (getItem sc key c).1 = none) : ∀ it ∈ sc.items, it.key ≠ key := by
  unfold getItem at h
  cases hf : sc.items.find? (fun it => it.key == key) with
  | none =>
    intro it hit hkey
    have := List.find?_eq_none.mp hf it hit
    simp [hkey] at this
  | some it => rw [hf] at h; simp at h

theorem getItem_some_mem {sc : ScoreCache} {key : Nat} {c : Bool}
    {existing : scoredItem}
    (h : (getItem sc key c).1 = some existing) :
    existing ∈ sc.items ∧ existing.key = key := by
  unfold getItem at h
  cases hf : sc.items.find? (fun it => it.key == key) with
  | none => rw [hf] at h; simp at h
  | some it =>
    rw [hf] at h
    simp only [Option.some.injEq] at h
    subst h
    refine ⟨List.mem_of_find?_eq_some hf, ?_⟩
    have := List.find?_some hf
    simpa using this

/-- Arithmetic of the eviction loop: on success the final weight is the
initial weight minus the evicted weights, it is the first weight at or
below `targetWeight` (every strict prefix of evictions still leaves the
loop condition true), exactly one heap entry leaves per eviction, and the
final map is a sublist of the initial one. -/
theorem evictLoop_spec_aux (fuel : Nat) : ∀ (l items : List scoredItem)
    (tw target : Int) (lf itf : List scoredItem) (twf : Int)
    (evs : List scoredItem), l.length ≤ fuel →
    evictLoop l items tw target = some (lf, itf, twf, evs) →
    twf ≤ target ∧
    twf = tw - (evs.map (fun e => e.weight)).sum ∧
    lf.length + evs.length = l.length ∧
    List.Sublist itf items ∧
    (∀ k, k < evs.length → target < tw - ((evs.take k).map (fun e => e.weight)).sum) := by
  induction fuel with
  | zero =>
    intro l items tw target lf itf twf evs hfuel h
    have hnil : l = [] := List.eq_nil_of_length_eq_zero (by omega)
    subst hnil
    rw [evictLoop] at h
    split at h
    · simp [heapPop] at h
    · rename_i htw
      cases h
      refine ⟨not_lt.mp htw, by simp, by simp, List.Sublist.refl _, ?_⟩
      intro k hk
      simp at hk
  | succ fuel ih =>
    intro l items tw target lf itf twf evs hfuel h
    rw [evictLoop] at h
    split at h
    · rename_i htw
      cases hpop : heapPop l with
      | none => rw [hpop] at h; exact absurd h (by simp)
      | some pr =>
        obtain ⟨item, l2⟩ := pr
        rw [hpop] at h
        dsimp only [] at h
        cases hrec : evictLoop l2 (items.filter (fun it => !(it.key == item.key)))
            (tw - item.weight) target with
        | none => rw [hrec] at h; exact absurd h (by simp)
        | some quad =>
          obtain ⟨lf2, itf2, twf2, evs2⟩ := quad
          rw [hrec] at h
          simp only [Option.some.injEq, Prod.mk.injEq] at h
          obtain ⟨h1, h2, h3, h4⟩ := h
          subst h1
          subst h2
          subst h3
          subst h4
          obtain ⟨hl2, hne⟩ := heapPop_length hpop
          have hpos : 0 < l.length := List.length_pos.mpr hne
          obtain ⟨s1, s2, s3, s4, s5⟩ :=
            ih l2 _ _ _ _ _ _ _ (by omega) hrec
          refine ⟨s1, ?_, ?_, s4.trans (List.filter_sublist items), ?_⟩
          · rw [s2]
            simp only [List.map_cons, List.sum_cons]
            ring
          · simp only [List.length_cons]
            omega
          · intro k hk
            match k with
            | 0 => simpa using htw
            | k + 1 =>
              have := s5 k (by simpa using hk)
              simp only [List.take_succ_cons, List.map_cons, List.sum_cons]
              omega
    · rename_i htw
      cases h
      refine ⟨not_lt.mp htw, by simp, by simp, List.Sublist.refl _, ?_⟩
      intro k hk
      simp at hk

theorem evictLoop_spec {l items : List scoredItem} {tw target : Int}
    {lf itf : List scoredItem} {twf : Int} {evs : List scoredItem}
    (h : evictLoop l items tw target = some (lf, itf, twf, evs)) :
    twf ≤ target ∧
    twf = tw - (evs.map (fun e => e.weight)).sum ∧
    lf.length + evs.length = l.length ∧
    List.Sublist itf items ∧
    (∀ k, k < evs.length → target < tw - ((evs.take k).map (fun e => e.weight)).sum) :=
  evictLoop_spec_aux l.length l items tw target lf itf twf evs le_rfl h

/-- The eviction loop preserves the heap invariant, the map/heap
correspondence and key distinctness. -/
theorem evictLoop_inv_aux (fuel : Nat) : ∀ (l items : List scoredItem)
    (tw target : Int) (lf itf : List scoredItem) (twf : Int)
    (evs : List scoredItem), l.length ≤ fuel →
    heapProp l → List.Perm items l → keysNodup items →
    evictLoop l items tw target = some (lf, itf, twf, evs) →
    heapProp lf ∧ List.Perm itf lf ∧ keysNodup itf := by
  induction fuel with
  | zero =>
    intro l items tw target lf itf twf evs hfuel hheap hperm hnodup h
    have hnil : l = [] := List.eq_nil_of_length_eq_zero (by omega)
    subst hnil
    rw [evictLoop] at h
    split at h
    · simp [heapPop] at h
    · cases h
      exact ⟨hheap, hperm, hnodup⟩
  | succ fuel ih =>
    intro l items tw target lf itf twf evs hfuel hheap hperm hnodup h
    rw [evictLoop] at h
    split at h
    · rename_i htw
      cases hpop : heapPop l with
      | none => rw [hpop] at h; exact absurd h (by simp)
      | some pr =>
        obtain ⟨item, l2⟩ := pr
        rw [hpop] at h
        dsimp only [] at h
        cases hrec : evictLoop l2 (items.filter (fun it => !(it.key == item.key)))
            (tw - item.weight) target with
        | none => rw [hrec] at h; exact absurd h (by simp)
        | some quad =>
          obtain ⟨lf2, itf2, twf2, evs2⟩ := quad
          rw [hrec] at h
          simp only [Option.some.injEq, Prod.mk.injEq] at h
          obtain ⟨h1, h2, h3, h4⟩ := h
          subst h1
          subst h2
          subst h3
          subst h4
          obtain ⟨hl2, hne⟩ := heapPop_length hpop
          have hpos : 0 < l.length := List.length_pos.mpr hne
          have hpc : List.Perm l (item :: l2) := heapPop_perm hpop
          have hkeysl2 : ∀ x ∈ l2, x.key ≠ item.key := by
            have hnodupm : (items.map (fun it => it.key)).Nodup := hnodup
            have hnd : ((item :: l2).map (fun it => it.key)).Nodup :=
              ((hperm.trans hpc).map (fun it => it.key)).nodup_iff.mp hnodupm
            simp only [List.map_cons, List.nodup_cons] at hnd
            intro x hx hxk
            exact hnd.1 (by rw [← hxk]; exact List.mem_map_of_mem _ hx)
          have hfilt : List.Perm
              (items.filter (fun it => !(it.key == item.key))) l2 := by
            have h1 := (hperm.trans hpc).filter (fun it => !(it.key == item.key))
            rw [List.filter_cons, if_neg (by simp)] at h1
            have h2 : l2.filter (fun it => !(it.key == item.key)) = l2 := by
              rw [List.filter_eq_self]
              intro x hx
              simp [hkeysl2 x hx]
            rw [h2] at h1
            exact h1
          have hnodup2 : keysNodup (items.filter (fun it => !(it.key == item.key))) :=
            List.Nodup.sublist
              ((List.filter_sublist items).map (fun it => it.key)) hnodup
          exact ih l2 _ _ _ _ _ _ _ (by omega)
            (heapPop_heapProp hheap hpop) hfilt hnodup2 hrec
    · cases h
      exact ⟨hheap, hperm, hnodup⟩

theorem evictLoop_inv {l items : List scoredItem} {tw target : Int}
    {lf itf : List scoredItem} {twf : Int} {evs : List scoredItem}
    (hheap : heapProp l) (hperm : List.Perm items l) (hnodup : keysNodup items)
    (h : evictLoop l items tw target = some (lf, itf, twf, evs)) :
    heapProp lf ∧ List.Perm itf lf ∧ keysNodup itf :=
  evictLoop_inv_aux l.length l items tw target lf itf twf evs le_rfl
    hheap hperm hnodup h

/-! ## Invariants of `set` and of `Set`-call sequences -/


theorem mkCache_inv (size : Int) (f g : Nat → Int) : CacheInv (mkCache size f g) := by
  refine ⟨?_, List.Perm.refl _, by simp [keysNodup, mkCache]⟩
  intro c hc hc0
  simp [mkCache] at hc

/-- Fields of the cache other than the working set, the heap and the
aggregate weight are untouched by `set`, and every entry of the resulting
map is either an old entry or carries the written key. -/
theorem setOp_frame {sc : ScoreCache} {key value : Nat} {sc2 : ScoreCache}
    {evs : List scoredItem} (h : setOp sc key value = some (sc2, evs)) :
    sc2.size = sc.size ∧ sc2.computeScore = sc.computeScore ∧
    sc2.computeWeight = sc.computeWeight ∧ sc2.hitCount = sc.hitCount ∧
    sc2.missCount = sc.missCount ∧ sc2.expiration = sc.expiration ∧
    sc2.loaderFunc = sc.loaderFunc ∧
    (∀ it ∈ sc2.items, it ∈ sc.items ∨ it.key = key) := by
  unfold setOp at h
  cases hf : (getItem sc key false).1 with
  | some existing =>
    rw [hf] at h
    dsimp only [] at h
    simp only [Option.some.injEq, Prod.mk.injEq] at h
    obtain ⟨h1, h2⟩ := h
    subst h1
    refine ⟨rfl, rfl, rfl, rfl, rfl, rfl, rfl, ?_⟩
    intro it hit
    simp only [List.mem_map] at hit
    obtain ⟨x, hx, hxe⟩ := hit
    by_cases hk : (x.key == key) = true
    · right
      rw [← hxe]
      simp only [hk, if_true]
      exact (getItem_some_mem hf).2
    · left
      rw [← hxe]
      simp only [hk, if_false]
      exact hx
  | none =>
    rw [hf] at h
    dsimp only [] at h
    split at h
    · unfold evictUntil at h
      cases hE : evictLoop sc.evictList sc.items sc.totalWeight
          (sc.totalWeight - sc.computeWeight value) with
      | none => rw [hE] at h; exact absurd h (by simp)
      | some quad =>
        obtain ⟨lf, itf, twf, evs0⟩ := quad
        rw [hE] at h
        dsimp only [] at h
        simp only [Option.some.injEq, Prod.mk.injEq] at h
        obtain ⟨h1, h2⟩ := h
        subst h1
        refine ⟨rfl, rfl, rfl, rfl, rfl, rfl, rfl, ?_⟩
        intro it hit
        simp only [List.mem_append, List.mem_singleton] at hit
        rcases hit with hit | hit
        · exact Or.inl (((evictLoop_spec hE).2.2.2.1).subset hit)
        · right; rw [hit]
    · simp only [Option.some.injEq, Prod.mk.injEq] at h
      obtain ⟨h1, h2⟩ := h
      subst h1
      refine ⟨rfl, rfl, rfl, rfl, rfl, rfl, rfl, ?_⟩
      intro it hit
      simp only [List.mem_append, List.mem_singleton] at hit
      rcases hit with hit | hit
      · exact Or.inl hit
      · right; rw [hit]

/-- On a fresh key, a successful `set` keeps the aggregate weight within
the capacity: the eviction loop (when triggered) frees at least the
incoming weight, so the post-insert weight never exceeds the pre-call
weight, and the non-eviction path fits by its own test. -/
theorem setOp_miss_weight {sc : ScoreCache} {key value : Nat} {sc2 : ScoreCache}
    {evs : List scoredItem} (hmiss : (getItem sc key false).1 = none)
    (h : setOp sc key value = some (sc2, evs))
    (hle : sc.totalWeight ≤ sc.size) : sc2.totalWeight ≤ sc.size := by
  unfold setOp at h
  rw [hmiss] at h
  dsimp only [] at h
  split at h
  · rename_i htrig
    unfold evictUntil at h
    cases hE : evictLoop sc.evictList sc.items sc.totalWeight
        (sc.totalWeight - sc.computeWeight value) with
    | none => rw [hE] at h; exact absurd h (by simp)
    | some quad =>
      obtain ⟨lf, itf, twf, evs0⟩ := quad
      rw [hE] at h
      dsimp only [] at h
      simp only [Option.some.injEq, Prod.mk.injEq] at h
      obtain ⟨h1, h2⟩ := h
      subst h1
      have hint := (evictLoop_spec hE).1
      simp only []
      omega
  · rename_i htrig
    simp only [Option.some.injEq, Prod.mk.injEq] at h
    obtain ⟨h1, h2⟩ := h
    subst h1
    simp only []
    omega

/-- In-place update of the unique entry with the written key (the Go code
mutates the shared `*scoredItem` and calls `heap.Fix` on its position):
the resulting slice is heap-ordered again. -/
theorem replace_heapProp {l : List scoredItem} {key : Nat} {newItem : scoredItem}
    (hnk : newItem.key = key) (hheap : heapProp l)
    (hnodup : (l.map (fun it => it.key)).Nodup) {idx : Nat}
    (hidx : (l.map (fun it => if it.key == key then newItem else it)).findIdx?
      (fun it => it.key == key) = some idx) :
    heapProp (heapFix (l.map (fun it => if it.key == key then newItem else it)) idx) := by
  have hkeyf : ∀ x : scoredItem,
      ((if x.key == key then newItem else x) : scoredItem).key = x.key := by
    intro x
    split
    · rename_i hx
      rw [hnk]
      exact (beq_iff_eq.mp hx).symm
    · rfl
  obtain ⟨hlt, hp, hprev⟩ := List.findIdx?_eq_some_iff_getElem.mp hidx
  have hlen : (l.map (fun it => if it.key == key then newItem else it)).length
      = l.length := by simp
  have hidxl : idx < l.length := by omega
  have hm_idx : itemAt (l.map (fun it => if it.key == key then newItem else it)) idx
      = if (itemAt l idx).key == key then newItem else itemAt l idx := by
    rw [itemAt_eq_getElem hlt, itemAt_eq_getElem hidxl, List.getElem_map]
  have hp2 : ((itemAt (l.map (fun it => if it.key == key then newItem else it))
      idx).key == key) = true := by
    rw [itemAt_eq_getElem hlt]
    exact hp
  have hkey_idx : (itemAt l idx).key = key := by
    rw [hm_idx] at hp2
    have h3 := beq_iff_eq.mp hp2
    rw [hkeyf] at h3
    exact h3
  have huniq : ∀ c, c < l.length → (itemAt l c).key = key → c = idx := by
    intro c hc hck
    have hinj := List.nodup_iff_injective_get.mp hnodup
    have hget : (l.map (fun it => it.key)).get ⟨c, by simpa using hc⟩
        = (l.map (fun it => it.key)).get ⟨idx, by simpa using hidxl⟩ := by
      simp only [List.get_eq_getElem, List.getElem_map]
      rw [← itemAt_eq_getElem hc, ← itemAt_eq_getElem hidxl, hck, hkey_idx]
    have h4 := hinj hget
    exact congrArg Fin.val h4
  have hvalo : ∀ c, c < l.length → c ≠ idx →
      val (l.map (fun it => if it.key == key then newItem else it)) c = val l c := by
    intro c hc hci
    have hck : ¬((itemAt l c).key == key) = true := by
      intro hck
      exact hci (huniq c hc (beq_iff_eq.mp hck))
    rw [val, val, itemAt_eq_getElem (by omega), itemAt_eq_getElem hc,
      List.getElem_map, ← itemAt_eq_getElem hc, if_neg hck]
  apply heapFix_heapProp _ idx (by omega)
  · intro c hc hc0 hci hpar
    rw [hlen] at hc
    rw [hvalo c hc hci, hvalo ((c - 1) / 2) (by omega) hpar]
    exact hheap c hc hc0
  · intro h0 c hc hc0 hpar
    rw [hlen] at hc
    have hgi : (idx - 1) / 2 ≠ idx := by omega
    have hci : c ≠ idx := by omega
    rw [hvalo ((idx - 1) / 2) (by omega) hgi, hvalo c hc hci]
    have t1 : val l ((idx - 1) / 2) ≤ val l idx := hheap idx hidxl h0
    have t2 := hheap c hc hc0
    rw [hpar] at t2
    exact le_trans t1 t2

/-- `set` preserves the cache state invariant. -/
theorem setOp_inv {sc : ScoreCache} {key value : Nat} {sc2 : ScoreCache}
    {evs : List scoredItem} (hinv : CacheInv sc)
    (h : setOp sc key value = some (sc2, evs)) : CacheInv sc2 := by
  obtain ⟨hheap, hperm, hnodup⟩ := hinv
  have hnodupm : (sc.items.map (fun it => it.key)).Nodup := hnodup
  unfold setOp at h
  cases hf : (getItem sc key false).1 with
  | some existing =>
    rw [hf] at h
    dsimp only [] at h
    simp only [Option.some.injEq, Prod.mk.injEq] at h
    obtain ⟨h1, h2⟩ := h
    subst h1
    obtain ⟨hmem, hkeyex⟩ := getItem_some_mem hf
    have hnk : (⟨existing.key, value, sc.computeScore value,
        sc.computeWeight value⟩ : scoredItem).key = key := hkeyex
    have hkeysame : sc.items.map (fun it =>
        ((if it.key == key then
          (⟨existing.key, value, sc.computeScore value, sc.computeWeight value⟩ :
            scoredItem) else it)).key) = sc.items.map (fun it => it.key) := by
      apply List.map_congr_left
      intro a ha
      split
      · rename_i hx
        rw [hnk]
        exact (beq_iff_eq.mp hx).symm
      · rfl
    have hnodupE : (sc.evictList.map (fun it => it.key)).Nodup :=
      (hperm.map (fun it => it.key)).nodup_iff.mp hnodupm
    refine ⟨?_, ?_, ?_⟩
    · -- heap order of the fixed slice
      show heapProp (match (sc.evictList.map (fun it =>
          if it.key == key then
            (⟨existing.key, value, sc.computeScore value, sc.computeWeight value⟩ :
              scoredItem) else it)).findIdx? (fun it => it.key == key) with
        | some idx => heapFix (sc.evictList.map (fun it =>
            if it.key == key then
              (⟨existing.key, value, sc.computeScore value, sc.computeWeight value⟩ :
                scoredItem) else it)) idx
        | none => sc.evictList.map (fun it =>
            if it.key == key then
              (⟨existing.key, value, sc.computeScore value, sc.computeWeight value⟩ :
                scoredItem) else it))
      cases hidx : (sc.evictList.map (fun it =>
          if it.key == key then
            (⟨existing.key, value, sc.computeScore value, sc.computeWeight value⟩ :
              scoredItem) else it)).findIdx? (fun it => it.key == key) with
      | none =>
        exfalso
        have hmemE : existing ∈ sc.evictList := hperm.mem_iff.mp hmem
        have hmap := List.mem_map_of_mem (fun it =>
          if it.key == key then
            (⟨existing.key, value, sc.computeScore value, sc.computeWeight value⟩ :
              scoredItem) else it) hmemE
        have h5 := List.findIdx?_eq_none_iff.mp hidx _ hmap
        simp [hkeyex] at h5
      | some idx =>
        exact replace_heapProp hnk hheap hnodupE hidx
    · -- map and heap still hold the same entries
      show List.Perm _ (match (sc.evictList.map (fun it =>
          if it.key == key then
            (⟨existing.key, value, sc.computeScore value, sc.computeWeight value⟩ :
              scoredItem) else it)).findIdx? (fun it => it.key == key) with
        | some idx => heapFix (sc.evictList.map (fun it =>
            if it.key == key then
              (⟨existing.key, value, sc.computeScore value, sc.computeWeight value⟩ :
                scoredItem) else it)) idx
        | none => sc.evictList.map (fun it =>
            if it.key == key then
              (⟨existing.key, value, sc.computeScore value, sc.computeWeight value⟩ :
                scoredItem) else it))
      cases hidx : (sc.evictList.map (fun it =>
          if it.key == key then
            (⟨existing.key, value, sc.computeScore value, sc.computeWeight value⟩ :
              scoredItem) else it)).findIdx? (fun it => it.key == key) with
      | none => exact hperm.map _
      | some idx =>
        have hlt : idx < (sc.evictList.map (fun it =>
            if it.key == key then
              (⟨existing.key, value, sc.computeScore value, sc.computeWeight value⟩ :
                scoredItem) else it)).length := by
          obtain ⟨hlt, _, _⟩ := List.findIdx?_eq_some_iff_getElem.mp hidx
          exact hlt
        exact (hperm.map _).trans (heapFix_perm hlt).symm
    · -- key distinctness is untouched
      show keysNodup _
      rw [keysNodup, List.map_map]
      have : ((fun it : scoredItem => it.key) ∘ (fun it =>
          if it.key == key then
            (⟨existing.key, value, sc.computeScore value, sc.computeWeight value⟩ :
              scoredItem) else it)) = fun it : scoredItem =>
          ((if it.key == key then
            (⟨existing.key, value, sc.computeScore value, sc.computeWeight value⟩ :
              scoredItem) else it)).key := rfl
      rw [this, hkeysame]
      exact hnodupm
  | none =>
    rw [hf] at h
    dsimp only [] at h
    have hfresh := getItem_none_forall hf
    split at h
    · unfold evictUntil at h
      cases hE : evictLoop sc.evictList sc.items sc.totalWeight
          (sc.totalWeight - sc.computeWeight value) with
      | none => rw [hE] at h; exact absurd h (by simp)
      | some quad =>
        obtain ⟨lf, itf, twf, evs0⟩ := quad
        rw [hE] at h
        dsimp only [] at h
        simp only [Option.some.injEq, Prod.mk.injEq] at h
        obtain ⟨h1, h2⟩ := h
        subst h1
        obtain ⟨hheapf, hpermf, hnodupf⟩ := evictLoop_inv hheap hperm hnodup hE
        have hsub := (evictLoop_spec hE).2.2.2.1
        refine ⟨heapPush_heapProp _ hheapf, ?_, ?_⟩
        · exact (hpermf.append_right _).trans (heapPush_perm lf _).symm
        · have hne : ∀ it ∈ itf, it.key ≠ key :=
            fun it hit => hfresh it (hsub.subset hit)
          rw [keysNodup, List.map_append, List.nodup_append]
          refine ⟨hnodupf, by simp, ?_⟩
          intro a ha hb
          simp only [List.map_cons, List.map_nil, List.mem_singleton] at hb
          simp only [List.mem_map] at ha
          obtain ⟨x, hx, hxk⟩ := ha
          exact hne x hx (by rw [hxk, hb])
    · simp only [Option.some.injEq, Prod.mk.injEq] at h
      obtain ⟨h1, h2⟩ := h
      subst h1
      refine ⟨heapPush_heapProp _ hheap, ?_, ?_⟩
      · exact (hperm.append_right _).trans (heapPush_perm sc.evictList _).symm
      · have hne : ∀ it ∈ sc.items, it.key ≠ key := hfresh
        rw [keysNodup, List.map_append, List.nodup_append]
        refine ⟨hnodupm, by simp, ?_⟩
        intro a ha hb
        simp only [List.map_cons, List.map_nil, List.mem_singleton] at hb
        simp only [List.mem_map] at ha
        obtain ⟨x, hx, hxk⟩ := ha
        exact hne x hx (by rw [hxk, hb])

/-- Every state reached from a state satisfying the invariant by a
sequence of `Set` calls satisfies the invariant. -/
theorem runSets_inv : ∀ (ops : List (Nat × Nat)) (sc scf : ScoreCache)
    (evsf : List scoredItem), CacheInv sc →
    runSets sc ops = some (scf, evsf) → CacheInv scf := by
  intro ops
  induction ops with
  | nil =>
    intro sc scf evsf hinv h
    rw [runSets] at h
    simp only [Option.some.injEq, Prod.mk.injEq] at h
    rw [← h.1]
    exact hinv
  | cons p rest ih =>
    intro sc scf evsf hinv h
    obtain ⟨k, v⟩ := p
    rw [runSets] at h
    cases hset : setOp sc k v with
    | none => rw [hset] at h; exact absurd h (by simp)
    | some pr =>
      obtain ⟨sc2, evs2⟩ := pr
      rw [hset] at h
      dsimp only [] at h
      cases hrun : runSets sc2 rest with
      | none => rw [hrun] at h; exact absurd h (by simp)
      | some prf =>
        obtain ⟨scf2, evs3⟩ := prf
        rw [hrun] at h
        simp only [Option.some.injEq, Prod.mk.injEq] at h
        rw [← h.1]
        exact ih sc2 scf2 evs3 (setOp_inv hinv hset) hrun

/-- A sequence of `Set` calls on pairwise-distinct keys, starting from a
state within capacity whose live keys avoid the sequence keys, stays
within capacity. -/
theorem runSets_le_size : ∀ (ops : List (Nat × Nat)) (sc scf : ScoreCache)
    (evsf : List scoredItem),
    (ops.map Prod.fst).Nodup →
    (∀ p ∈ ops, ∀ it ∈ sc.items, it.key ≠ p.1) →
    sc.totalWeight ≤ sc.size →
    runSets sc ops = some (scf, evsf) →
    scf.totalWeight ≤ scf.size ∧ scf.size = sc.size := by
  intro ops
  induction ops with
  | nil =>
    intro sc scf evsf hkeys hfresh hle h
    rw [runSets] at h
    simp only [Option.some.injEq, Prod.mk.injEq] at h
    rw [← h.1]
    exact ⟨hle, rfl⟩
  | cons p rest ih =>
    intro sc scf evsf hkeys hfresh hle h
    obtain ⟨k, v⟩ := p
    rw [runSets] at h
    cases hset : setOp sc k v with
    | none => rw [hset] at h; exact absurd h (by simp)
    | some pr =>
      obtain ⟨sc2, evs2⟩ := pr
      rw [hset] at h
      dsimp only [] at h
      cases hrun : runSets sc2 rest with
      | none => rw [hrun] at h; exact absurd h (by simp)
      | some prf =>
        obtain ⟨scf2, evs3⟩ := prf
        rw [hrun] at h
        simp only [Option.some.injEq, Prod.mk.injEq] at h
        rw [← h.1]
        have hmiss : (getItem sc k false).1 = none :=
          getItem_fst_none (fun it hit => hfresh (k, v) (by simp) it hit)
        have hle2 : sc2.totalWeight ≤ sc.size := setOp_miss_weight hmiss hset hle
        obtain ⟨hsz, _, _, _, _, _, _, hkeys2⟩ := setOp_frame hset
        simp only [List.map_cons, List.nodup_cons] at hkeys
        have hfresh2 : ∀ p2 ∈ rest, ∀ it ∈ sc2.items, it.key ≠ p2.1 := by
          intro p2 hp2 it hit
          rcases hkeys2 it hit with hold | hnew
          · exact hfresh p2 (by simp [hp2]) it hold
          · rw [hnew]
            intro hkp
            exact hkeys.1 (by rw [hkp]; exact List.mem_map_of_mem _ hp2)
        have := ih sc2 scf2 evs3 hkeys.2 hfresh2 (by rw [← hsz] at hle2; exact hle2) hrun
        rw [hsz] at this
        exact this



theorem evictLoop_min_aux (fuel : Nat) : ∀ (l items : List scoredItem)
    (tw target : Int) (lf itf : List scoredItem) (twf : Int)
    (evs : List scoredItem), l.length ≤ fuel →
    heapProp l → List.Perm items l → keysNodup items →
    items.Pairwise (fun a b => a.score ≠ b.score) →
    evictLoop l items tw target = some (lf, itf, twf, evs) →
    StepwiseMin items evs ∧ itf.length + evs.length = items.length := by
  induction fuel with
  | zero =>
    intro l items tw target lf itf twf evs hfuel hheap hperm hnodup hpw h
    have hnil : l = [] := List.eq_nil_of_length_eq_zero (by omega)
    subst hnil
    rw [evictLoop] at h
    split at h
    · simp [heapPop] at h
    · cases h
      refine ⟨fun k hk => absurd hk (by simp), by simp⟩
  | succ fuel ih =>
    intro l items tw target lf itf twf evs hfuel hheap hperm hnodup hpw h
    rw [evictLoop] at h
    split at h
    · rename_i htw
      cases hpop : heapPop l with
      | none => rw [hpop] at h; exact absurd h (by simp)
      | some pr =>
        obtain ⟨item, l2⟩ := pr
        rw [hpop] at h
        dsimp only [] at h
        cases hrec : evictLoop l2 (items.filter (fun it => !(it.key == item.key)))
            (tw - item.weight) target with
        | none => rw [hrec] at h; exact absurd h (by simp)
        | some quad =>
          obtain ⟨lf2, itf2, twf2, evs2⟩ := quad
          rw [hrec] at h
          simp only [Option.some.injEq, Prod.mk.injEq] at h
          obtain ⟨h1, h2, h3, h4⟩ := h
          subst h1
          subst h2
          subst h3
          subst h4
          obtain ⟨hl2, hne⟩ := heapPop_length hpop
          have hpos : 0 < l.length := List.length_pos.mpr hne
          have hpc : List.Perm l (item :: l2) := heapPop_perm hpop
          have hmeml : item ∈ l := hpc.mem_iff.mpr (by simp)
          have hmemi : item ∈ items := hperm.mem_iff.mpr hmeml
          have hkeysl2 : ∀ x ∈ l2, x.key ≠ item.key := by
            have hnodupm : (items.map (fun it => it.key)).Nodup := hnodup
            have hnd : ((item :: l2).map (fun it => it.key)).Nodup :=
              ((hperm.trans hpc).map (fun it => it.key)).nodup_iff.mp hnodupm
            simp only [List.map_cons, List.nodup_cons] at hnd
            intro x hx hxk
            exact hnd.1 (by rw [← hxk]; exact List.mem_map_of_mem _ hx)
          have hfilt : List.Perm
              (items.filter (fun it => !(it.key == item.key))) l2 := by
            have hf1 := (hperm.trans hpc).filter (fun it => !(it.key == item.key))
            rw [List.filter_cons, if_neg (by simp)] at hf1
            have hf2 : l2.filter (fun it => !(it.key == item.key)) = l2 := by
              rw [List.filter_eq_self]
              intro x hx
              simp [hkeysl2 x hx]
            rw [hf2] at hf1
            exact hf1
          have hnodup2 : keysNodup (items.filter (fun it => !(it.key == item.key))) :=
            List.Nodup.sublist
              ((List.filter_sublist items).map (fun it => it.key)) hnodup
          have hpw2 := List.Pairwise.sublist
            (@List.filter_sublist _ (fun it => !(it.key == item.key)) items) hpw
          obtain ⟨sm2, hlenrec⟩ := ih l2 _ _ _ _ _ _ _ (by omega)
            (heapPop_heapProp hheap hpop) hfilt hnodup2 hpw2 hrec
          have hminall : ∀ o ∈ items, o.key ≠ item.key → item.score < o.score := by
            intro o ho hok
            have hle : item.score ≤ o.score :=
              heapPop_min hheap hpop o (hperm.mem_iff.mp ho)
            have hne2 : o ≠ item := fun he => hok (by rw [he])
            have hscne : item.score ≠ o.score :=
              List.Pairwise.forall (fun a b hab => (hab ∘ Eq.symm : ¬_)) hpw
                hmemi ho (fun he => hne2 he.symm)
            exact lt_of_le_of_ne hle hscne
          refine ⟨?_, ?_⟩
          · intro k hk
            match k with
            | 0 =>
              refine ⟨by simpa [removedBy] using hmemi, ?_⟩
              intro o ho hok
              simp only [List.take_zero] at ho hok ⊢
              have ho2 : o ∈ items := by simpa [removedBy] using ho
              exact hminall o ho2 (by simpa using hok)
            | k + 1 =>
              have hk2 : k < evs2.length := by simpa using hk
              have := sm2 k hk2
              simpa [removedBy, List.take_succ_cons] using this
          · have hlen1 : (items.filter (fun it => !(it.key == item.key))).length
                = l2.length := hfilt.length_eq
            have hlen0 : items.length = l.length := hperm.length_eq
            simp only [List.length_cons]
            omega
    · cases h
      refine ⟨fun k hk => absurd hk (by simp), by simp⟩

theorem evictLoop_min {l items : List scoredItem} {tw target : Int}
    {lf itf : List scoredItem} {twf : Int} {evs : List scoredItem}
    (hheap : heapProp l) (hperm : List.Perm items l) (hnodup : keysNodup items)
    (hpw : items.Pairwise (fun a b => a.score ≠ b.score))
    (h : evictLoop l items tw target = some (lf, itf, twf, evs)) :
    StepwiseMin items evs ∧ itf.length + evs.length = items.length :=
  evictLoop_min_aux l.length l items tw target lf itf twf evs le_rfl
    hheap hperm hnodup hpw h

/-! ## Stats bookkeeping of the lookup paths -/

theorem getItem_count_stats (sc : ScoreCache) (key : Nat) :
    ((getItem sc key true).2.hitCount + (getItem sc key true).2.missCount
      = sc.hitCount + sc.missCount + 1) ∧
    ((∃ it ∈ sc.items, it.key = key) →
      (getItem sc key true).2.hitCount = sc.hitCount + 1 ∧
      (getItem sc key true).2.missCount = sc.missCount) ∧
    ((∀ it ∈ sc.items, it.key ≠ key) →
      (getItem sc key true).2.missCount = sc.missCount + 1 ∧
      (getItem sc key true).2.hitCount = sc.hitCount) ∧
    (getItem sc key true).2.items = sc.items ∧
    (getItem sc key true).2.loaderFunc = sc.loaderFunc := by
  unfold getItem
  cases hf : sc.items.find? (fun it => it.key == key) with
  | none =>
    refine ⟨by simp; omega, ?_, fun _ => ⟨rfl, rfl⟩, rfl, rfl⟩
    rintro ⟨it, hit, hkey⟩
    have := List.find?_eq_none.mp hf it hit
    simp [hkey] at this
  | some it =>
    refine ⟨by simp; omega, fun _ => ⟨rfl, rfl⟩, ?_, rfl, rfl⟩
    intro habs
    have hmem := List.mem_of_find?_eq_some hf
    have hkey : it.key = key := by simpa using List.find?_some hf
    exact absurd hkey (habs it hmem)

theorem getIFPresentOp_snd (sc : ScoreCache) (key : Nat) :
    (getIFPresentOp sc key).2 = (getItem sc key true).2 := by
  unfold getIFPresentOp
  cases hgi : getItem sc key true with
  | mk fst snd => cases fst <;> rfl

/-! ## Concrete sample states shared by the witnesses -/


theorem sampleCache_reachable :
    setOp (mkCache 10 (fun _ => 1) (fun _ => 1)) 1 2 = some (sampleCache, []) := by
  simp [setOp, getItem, mkCache, heapPush, heapUp, itemAt, sampleCache]


theorem twoCache_reachable :
    runSets (mkCache 10 (fun v => (v : Int)) (fun v => (v : Int)))
      [(1, 3), (2, 4)] = some (twoCache, []) := by
  simp [runSets, setOp, getItem, mkCache, heapPush, heapUp, hswap, itemAt,
    twoCache]

/-- Setting key 5 with value 6 on `twoCache` (weight 6 exceeds the slack)
drains both entries and admits the new one. -/
theorem twoCache_set :
    setOp twoCache 5 6 = some
      ({ twoCache with
          items := [⟨5, 6, 6, 6⟩]
          evictList := [⟨5, 6, 6, 6⟩]
          totalWeight := 6 }, [⟨1, 3, 3, 3⟩, ⟨2, 4, 4, 4⟩]) := by
  simp [setOp, getItem, twoCache, evictUntil, evictLoop, heapPop, heapPush,
    heapUp, heapDownAux, downChild, hswap, itemAt]

/-! ## The claims -/

/-- C4 (code bug): the spec says a `Set` whose incoming weight exceeds the
capacity drains the working set and then admits the item, and that no
operation panics.  The code instead reaches `heap.Pop` on an empty heap
(`Swap(0, -1)`, index out of range) whenever the incoming weight exceeds
the current aggregate weight: on an empty cache of capacity 10 with
constant weight 15, and equally on the drained one-entry cache — `Set`
panics (modelled as `none`) instead of admitting the over-weight item. -/
theorem setOverweightPanics :
    setOp (mkCache 10 (fun _ => 1) (fun _ => 15)) 0 0 = none ∧
    setOp { sampleCache with computeWeight := fun _ => 15 } 9 9 = none := by
  constructor
  · simp [setOp, getItem, mkCache, evictUntil, evictLoop, heapPop, itemAt]
  · simp [setOp, getItem, sampleCache, evictUntil, evictLoop, heapPop,
      heapDownAux, hswap, itemAt]

/-- C5 (code bug): `Purge` (`reset`) replaces the map and the heap with
fresh empty ones and fires no evicted callback, but it never clears
`totalWeight`: after `Set 1 2` (weight 4) and `Purge`, the working set is
empty and no callback fired, yet the aggregate weight is still 4, not 0 as
the spec requires. -/
theorem purgeKeepsTotalWeight :
    (setOp (mkCache 10 (fun _ => 1) (fun _ => 4)) 1 2).map
      (fun p => ((purgeOp p.1).1.items.length, (purgeOp p.1).1.evictList.length,
        (purgeOp p.1).1.totalWeight, (purgeOp p.1).2.length))
      = some (0, 0, 4, 0) := by
  simp [setOp, getItem, mkCache, heapPush, heapUp, itemAt, purgeOp]

/-- C6 (code bug): `Remove` tests `if index > 0` instead of `index >= 0`.
On a cache whose single live entry (key 1, weight 4) sits at heap index 0,
`Remove 1` returns `false`, fires no evicted callback, leaves the heap
slice (length 1) and the aggregate weight (4) untouched — but has already
deleted the key from the map (length 0), so the live key is reported
"not found" with the state half-mutated, contradicting the claim on every
count. -/
theorem removeRootEntryFails :
    (setOp (mkCache 10 (fun _ => 1) (fun _ => 4)) 1 2).map
      (fun p => ((removeOp p.1 1).1, (removeOp p.1 1).2.1.items.length,
        (removeOp p.1 1).2.1.evictList.length, (removeOp p.1 1).2.1.totalWeight,
        (removeOp p.1 1).2.2.length))
      = some (false, 0, 1, 4, 0) := by
  simp [setOp, getItem, mkCache, heapPush, heapUp, itemAt, removeOp]

/-- C8 (code bug): `scoredItem` stores no expiry instant and `getItem`
never consults the configured expiration, so entries of a `ScoreCache`
never expire: for every configured expiration `e` (including one whose
duration has long elapsed since the entry was written), `GetIFPresent`
still returns the value and counts a hit, instead of treating the entry
as absent. -/
theorem expirationIgnored : ∀ e : Option Int,
    (getIFPresentOp { sampleCache with expiration := e } 1).1 = some 2 ∧
    (getIFPresentOp { sampleCache with expiration := e } 1).2.hitCount = 1 ∧
    (getIFPresentOp { sampleCache with expiration := e } 1).2.missCount = 0 := by
  intro e
  refine ⟨?_, ?_, ?_⟩ <;> simp [getIFPresentOp, getItem, sampleCache]

/-- C9 (confirmed): `GetALL` returns exactly the live key/value pairs and
leaves the whole cache state — working set, heap, aggregate weight and
the statistics counters — unchanged; the mapping is built fresh by
copying (`m := make(...)` then `m[k] = v.value`), so the caller holds a
snapshot whose mutation cannot reach cache state. -/
theorem getALLSnapshot (sc : ScoreCache) :
    (getALLOp sc).2 = sc ∧
    (∀ k v, (k, v) ∈ (getALLOp sc).1 ↔ ∃ it ∈ sc.items, it.key = k ∧ it.value = v) ∧
    (getALLOp sc).1.length = lenOp sc := by
  refine ⟨rfl, ?_, by simp [getALLOp, lenOp]⟩
  intro k v
  unfold getALLOp
  simp only [List.mem_map]
  constructor
  · rintro ⟨it, hit, heq⟩
    exact ⟨it, hit, congrArg Prod.fst heq, congrArg Prod.snd heq⟩
  · rintro ⟨it, hit, h1, h2⟩
    exact ⟨it, hit, by rw [h1, h2]⟩

/-- C10 (confirmed): `Purge` only calls `reset`, which replaces the map
and the heap; the statistics counters of the embedded `baseCache` are
untouched, so hit, miss and lookup counts after a `Purge` equal their
values before it. -/
theorem purgeKeepsStats (sc : ScoreCache) :
    (purgeOp sc).1.hitCount = sc.hitCount ∧
    (purgeOp sc).1.missCount = sc.missCount ∧
    LookupCount (purgeOp sc).1 = LookupCount sc :=
  ⟨rfl, rfl, rfl⟩

/-- C7 (confirmed; the stats counters themselves are modelled from the
spec since `stats`/`baseCache` are not under src/): `LookupCount` is by
construction `HitCount + MissCount`; `HitRate` is `hit / lookup` whenever
the lookup count is positive; and each `GetIFPresent` or (successful)
`Get` increments exactly one of the two counters — the hit counter when
the key is live, the miss counter when it is absent (a loading `Get`
commits through `set`, which calls `getItem` with `count == false`, so no
second increment happens). -/
theorem statsArithmetic (sc : ScoreCache) (key : Nat) :
    LookupCount sc = sc.hitCount + sc.missCount ∧
    (0 < LookupCount sc →
      HitRate sc = (sc.hitCount : ℚ) / (LookupCount sc : ℚ)) ∧
    LookupCount (getIFPresentOp sc key).2 = LookupCount sc + 1 ∧
    ((∃ it ∈ sc.items, it.key = key) →
      (getIFPresentOp sc key).2.hitCount = sc.hitCount + 1 ∧
      (getIFPresentOp sc key).2.missCount = sc.missCount) ∧
    ((∀ it ∈ sc.items, it.key ≠ key) →
      (getIFPresentOp sc key).2.missCount = sc.missCount + 1 ∧
      (getIFPresentOp sc key).2.hitCount = sc.hitCount) ∧
    (∀ res, getOp sc key = some res →
      LookupCount res.2.1 = LookupCount sc + 1 ∧
      ((∃ it ∈ sc.items, it.key = key) →
        res.2.1.hitCount = sc.hitCount + 1 ∧ res.2.1.missCount = sc.missCount) ∧
      ((∀ it ∈ sc.items, it.key ≠ key) →
        res.2.1.missCount = sc.missCount + 1 ∧ res.2.1.hitCount = sc.hitCount)) := by
  obtain ⟨hsum, hlive, habs, hitems, hload⟩ := getItem_count_stats sc key
  refine ⟨rfl, ?_, ?_, ?_, ?_, ?_⟩
  · intro hpos
    rw [HitRate, if_neg (by omega)]
  · rw [getIFPresentOp_snd, LookupCount, LookupCount, hsum]
  · intro hl
    rw [getIFPresentOp_snd]
    exact hlive hl
  · intro ha
    rw [getIFPresentOp_snd]
    exact habs ha
  · intro res hres
    unfold getOp at hres
    cases hgi : getItem sc key true with
    | mk fst snd =>
      rw [hgi] at hres hsum hlive habs hitems hload
      cases fst with
      | some it =>
        dsimp only [] at hres
        simp only [Option.some.injEq] at hres
        subst hres
        have hl : ∃ it2 ∈ sc.items, it2.key = key := by
          have : (getItem sc key true).1 = some it := by rw [hgi]
          obtain ⟨hmem, hkey⟩ := getItem_some_mem this
          exact ⟨it, hmem, hkey⟩
        refine ⟨by rw [LookupCount, LookupCount, hsum], fun _ => hlive hl, ?_⟩
        intro habs2
        obtain ⟨it2, hmem2, hkey2⟩ := hl
        exact absurd hkey2 (habs2 it2 hmem2)
      | none =>
        dsimp only [] at hres
        have habs2 : ∀ it ∈ sc.items, it.key ≠ key := by
          apply getItem_none_forall (c := true)
          rw [hgi]
        cases hlf : snd.loaderFunc with
        | none =>
          rw [hlf] at hres
          simp only [Option.some.injEq] at hres
          subst hres
          refine ⟨by rw [LookupCount, LookupCount, hsum], ?_, fun _ => habs habs2⟩
          rintro ⟨it2, hmem2, hkey2⟩
          exact absurd hkey2 (habs2 it2 hmem2)
        | some f =>
          rw [hlf] at hres
          dsimp only [] at hres
          cases hset : setOp snd key (f key) with
          | none => rw [hset] at hres; exact absurd hres (by simp)
          | some pr =>
            obtain ⟨sc2, evs2⟩ := pr
            rw [hset] at hres
            simp only [Option.some.injEq] at hres
            subst hres
            obtain ⟨_, _, _, hhc, hmc, _, _, _⟩ := setOp_frame hset
            refine ⟨?_, ?_, ?_⟩
            · rw [LookupCount, LookupCount]
              dsimp only []
              rw [hhc, hmc, hsum]
            · rintro ⟨it2, hmem2, hkey2⟩
              exact absurd hkey2 (habs2 it2 hmem2)
            · intro _
              dsimp only []
              rw [hhc, hmc]
              exact habs habs2

/-- C1 (counterexample): the capacity invariant fails for `Set` sequences
that update an existing key.  With capacity 10 and weight = value, after
`Set 0 4; Set 1 4; Set 0 10` the update path adjusts the weight delta
without any capacity check: the aggregate weight is 14 > 10 while two
entries are live. -/
theorem updateBreaksCapacityInvariant :
    match runSets (mkCache 10 (fun v => (v : Int)) (fun v => (v : Int)))
        [(0, 4), (1, 4), (0, 10)] with
    | none => False
    | some p => ¬(p.1.totalWeight ≤ p.1.size ∨ p.1.items.length = 1) := by
  simp [runSets, setOp, getItem, mkCache, heapPush, heapUp, heapFix,
    heapDownAux, downChild, hswap, itemAt]

/-- C1 (amended): for every capacity > 0, scoring and weighting function,
and every sequence of `Set` calls on pairwise-distinct keys starting from
the empty cache, after each call that returns (does not panic) the
aggregate weight is at most the capacity (so in particular the claimed
disjunction holds).  The update path is excluded — a `Set` on a live key
re-weighs the entry with no capacity check (see the counterexample) — and
calls that panic have no after-state. -/
theorem capacityInvariantFreshKeys (size : Int) (f g : Nat → Int)
    (ops : List (Nat × Nat)) (scf : ScoreCache) (evsf : List scoredItem)
    (hsize : 0 < size) (hkeys : (ops.map Prod.fst).Nodup)
    (h : runSets (mkCache size f g) ops = some (scf, evsf)) :
    scf.totalWeight ≤ scf.size ∨ scf.items.length = 1 :=
  Or.inl (runSets_le_size ops (mkCache size f g) scf evsf hkeys
    (by intro p hp it hit; simp [mkCache] at hit)
    (by simp [mkCache]; omega) h).1

theorem capacityInvariantFreshKeysWitness :
    (0 : Int) < 10 ∧ (([(1, 3), (2, 4)] : List (Nat × Nat)).map Prod.fst).Nodup ∧
    (twoCache.totalWeight ≤ twoCache.size ∨ twoCache.items.length = 1) :=
  ⟨by norm_num, by decide,
    capacityInvariantFreshKeys 10 (fun v => (v : Int)) (fun v => (v : Int))
      [(1, 3), (2, 4)] twoCache [] (by norm_num) (by decide) twoCache_reachable⟩

/-- C2 (counterexample): the loop does not stop at the first state in
which the new item fits.  Capacity 10, weight = value: after three inserts
of weight 2 (aggregate 6), `Set` of weight 5 triggers eviction.  The
claimed rule stops after one eviction (6 - 2 + 5 = 9 ≤ 10), but the code
evicts until the aggregate drops to `6 - 5`, i.e. all three entries
(callback weights [2, 2, 2]), leaving aggregate 5. -/
theorem overEvictionCounterexample :
    match runSets (mkCache 10 (fun v => (v : Int)) (fun v => (v : Int)))
        [(10, 2), (11, 2), (12, 2), (13, 5)] with
    | none => False
    | some p =>
        p.2.map (fun e => e.weight) = [2, 2, 2] ∧
        p.1.totalWeight = 5 ∧ p.1.size = 10 ∧ (6 : Int) - 2 + 5 ≤ 10 := by
  simp [runSets, setOp, getItem, mkCache, evictUntil, evictLoop, heapPop,
    heapPush, heapUp, heapDownAux, downChild, hswap, itemAt]

/-- C2 (amended): when `Set` on a new key finds
`aggregate_weight + weight > capacity`, the eviction loop removes entries
one at a time and stops at the first state in which the aggregate weight
has dropped by at least `weight(new item)` (i.e. to
`targetWeight = aggregate_weight - weight`); it never stops earlier, the
final weight is the initial weight minus the evicted weights plus the
admitted weight, and exactly one heap entry leaves per eviction.  This can
evict past the first state in which the new item fits, and the loop panics
(returns no state) if the working set empties first. -/
theorem evictionFreesIncomingWeight (sc : ScoreCache) (key value : Nat)
    (sc2 : ScoreCache) (evs : List scoredItem)
    (hmiss : (getItem sc key false).1 = none)
    (hover : sc.totalWeight + sc.computeWeight value > sc.size)
    (h : setOp sc key value = some (sc2, evs)) :
    sc2.totalWeight
      = sc.totalWeight - (evs.map (fun e => e.weight)).sum + sc.computeWeight value ∧
    sc2.totalWeight ≤ sc.totalWeight ∧
    sc2.evictList.length + evs.length = sc.evictList.length + 1 ∧
    (∀ k, k < evs.length →
      sc.totalWeight - ((evs.take k).map (fun e => e.weight)).sum
        > sc.totalWeight - sc.computeWeight value) := by
  unfold setOp at h
  rw [hmiss] at h
  dsimp only [] at h
  split at h
  · unfold evictUntil at h
    cases hE : evictLoop sc.evictList sc.items sc.totalWeight
        (sc.totalWeight - sc.computeWeight value) with
    | none => rw [hE] at h; exact absurd h (by simp)
    | some quad =>
      obtain ⟨lf, itf, twf, evs2⟩ := quad
      rw [hE] at h
      dsimp only [] at h
      simp only [Option.some.injEq, Prod.mk.injEq] at h
      obtain ⟨h1, h2⟩ := h
      subst h1
      subst h2
      obtain ⟨s1, s2, s3, s4, s5⟩ := evictLoop_spec hE
      have hpl := heapPush_length lf
        ⟨key, value, sc.computeScore value, sc.computeWeight value⟩
      refine ⟨?_, ?_, ?_, ?_⟩
      · dsimp only []
        omega
      · dsimp only []
        omega
      · dsimp only []
        rw [hpl]
        omega
      · intro k hk
        have := s5 k hk
        omega
  · rename_i htrig
    exact absurd hover htrig

theorem evictionFreesIncomingWeightWitness :
    (getItem twoCache 5 false).1 = none ∧
    twoCache.totalWeight + twoCache.computeWeight 6 > twoCache.size ∧
    ({ twoCache with
        items := [⟨5, 6, 6, 6⟩]
        evictList := [⟨5, 6, 6, 6⟩]
        totalWeight := 6 } : ScoreCache).totalWeight ≤ twoCache.totalWeight ∧
    ({ twoCache with
        items := [⟨5, 6, 6, 6⟩]
        evictList := [⟨5, 6, 6, 6⟩]
        totalWeight := 6 } : ScoreCache).evictList.length
      + ([⟨1, 3, 3, 3⟩, ⟨2, 4, 4, 4⟩] : List scoredItem).length
      = twoCache.evictList.length + 1 ∧
    twoCache.totalWeight
      - ((([⟨1, 3, 3, 3⟩, ⟨2, 4, 4, 4⟩] : List scoredItem).take 1).map
          (fun e => e.weight)).sum
      > twoCache.totalWeight - twoCache.computeWeight 6 :=
  ⟨by decide, by decide,
    (evictionFreesIncomingWeight twoCache 5 6 _ _ (by decide) (by decide)
      twoCache_set).2.1,
    (evictionFreesIncomingWeight twoCache 5 6 _ _ (by decide) (by decide)
      twoCache_set).2.2.1,
    (evictionFreesIncomingWeight twoCache 5 6 _ _ (by decide) (by decide)
      twoCache_set).2.2.2 1 (by decide)⟩

/-- C3 (confirmed): in every cache populated only by `Set` calls whose
live entries have pairwise-distinct scores, the eviction loop run by a
further `Set` on a fresh key removes exactly one entry per step, and at
every step the removed entry has the strictly least score among the
entries live at that step (for a non-evicting `Set` the statement holds
vacuously with zero evictions). -/
theorem scoreOrderEviction (size : Int) (f g : Nat → Int)
    (ops : List (Nat × Nat)) (sc : ScoreCache) (evs0 : List scoredItem)
    (hreach : runSets (mkCache size f g) ops = some (sc, evs0))
    (hpw : sc.items.Pairwise (fun a b => a.score ≠ b.score))
    (key value : Nat) (sc2 : ScoreCache) (evs : List scoredItem)
    (hmiss : (getItem sc key false).1 = none)
    (h : setOp sc key value = some (sc2, evs)) :
    StepwiseMin sc.items evs ∧
    sc2.items.length + evs.length = sc.items.length + 1 := by
  obtain ⟨hheap, hperm, hnodup⟩ :=
    runSets_inv ops _ _ _ (mkCache_inv size f g) hreach
  unfold setOp at h
  rw [hmiss] at h
  dsimp only [] at h
  split at h
  · unfold evictUntil at h
    cases hE : evictLoop sc.evictList sc.items sc.totalWeight
        (sc.totalWeight - sc.computeWeight value) with
    | none => rw [hE] at h; exact absurd h (by simp)
    | some quad =>
      obtain ⟨lf, itf, twf, evs2⟩ := quad
      rw [hE] at h
      dsimp only [] at h
      simp only [Option.some.injEq, Prod.mk.injEq] at h
      obtain ⟨h1, h2⟩ := h
      subst h1
      subst h2
      obtain ⟨hsm, hlen⟩ := evictLoop_min hheap hperm hnodup hpw hE
      refine ⟨hsm, ?_⟩
      dsimp only []
      rw [List.length_append]
      simp only [List.length_cons, List.length_nil]
      omega
  · simp only [Option.some.injEq, Prod.mk.injEq] at h
    obtain ⟨h1, h2⟩ := h
    subst h1
    subst h2
    refine ⟨fun k hk => absurd hk (by simp), ?_⟩
    dsimp only []
    rw [List.length_append]
    simp

theorem scoreOrderEvictionWitness :
    twoCache.items.Pairwise (fun a b => a.score ≠ b.score) ∧
    (getItem twoCache 5 false).1 = none ∧
    StepwiseMin twoCache.items [⟨1, 3, 3, 3⟩, ⟨2, 4, 4, 4⟩] ∧
    ({ twoCache with
        items := [⟨5, 6, 6, 6⟩]
        evictList := [⟨5, 6, 6, 6⟩]
        totalWeight := 6 } : ScoreCache).items.length
      + ([⟨1, 3, 3, 3⟩, ⟨2, 4, 4, 4⟩] : List scoredItem).length
      = twoCache.items.length + 1 :=
  ⟨by decide, by decide,
    (scoreOrderEviction 10 (fun v => (v : Int)) (fun v => (v : Int))
      [(1, 3), (2, 4)] twoCache [] twoCache_reachable (by decide) 5 6 _ _
      (by decide) twoCache_set).1,
    (scoreOrderEviction 10 (fun v => (v : Int)) (fun v => (v : Int))
      [(1, 3), (2, 4)] twoCache [] twoCache_reachable (by decide) 5 6 _ _
      (by decide) twoCache_set).2⟩

theorem statsArithmeticWitness :
    (∃ it ∈ sampleCache.items, it.key = 1) ∧
    (∀ it ∈ sampleCache.items, it.key ≠ 9) ∧
    (getIFPresentOp sampleCache 1).2.hitCount = sampleCache.hitCount + 1 ∧
    (getIFPresentOp sampleCache 9).2.missCount = sampleCache.missCount + 1 ∧
    LookupCount (getIFPresentOp sampleCache 1).2 = LookupCount sampleCache + 1 ∧
    0 < LookupCount { sampleCache with hitCount := 3, missCount := 1 } ∧
    HitRate { sampleCache with hitCount := 3, missCount := 1 }
      = (((3 : Nat) : ℚ)) / (((4 : Nat) : ℚ)) :=
  ⟨by decide, by decide,
    ((statsArithmetic sampleCache 1).2.2.2.1 (by decide)).1,
    ((statsArithmetic sampleCache 9).2.2.2.2.1 (by decide)).1,
    (statsArithmetic sampleCache 1).2.2.1,
    by decide,
    (statsArithmetic { sampleCache with hitCount := 3, missCount := 1 } 1).2.1
      (by decide)⟩

end GCache
